import Mathlib

/-!
# Minesweeper board engine (`saper.c`)

A shallow embedding of the board engine of `saper.c` and the properties of
its operations: `init_board`, `place_mines`, `reveal_cell`, `toggle_flag`,
`check_win` and the key loop of `main`.

Conventions.
* C `int` fields are integers (`Int`); a field used as a truth value is true
  exactly when it is non-zero, as in C.
* `flags_remaining--` and `flags_remaining++` in `toggle_flag` are the
  decrement and increment of a 32-bit `int` (`int_dec`, `int_inc`): one less
  and one more, wrapping between `INT_MIN` and `INT_MAX` as two's complement
  hardware does. The other arithmetic of the engine stays far from the ends
  of the `int` range on the boards considered: `neighbor_mines` grows by at
  most nine from zero and the cursor stays inside the grid.
* The grid `cells[ROWS][COLS]` is a function on `Fin ROWS` and `Fin COLS`,
  so a cell can only be read or written at an index that carries a proof of
  being in bounds.
* `reveal_cell` is recursive in C. Its embedding `reveal_cell_fuel` takes a
  bound on the depth of the call stack and answers `none` when the bound is
  reached; `reveal_cell` runs it with `ROWS * COLS + 1`, which is shown to be
  enough on every board.
* `rand()` is an arbitrary list of pairs of non-negative values, one pair per
  iteration of the placement loop.
-/

namespace Saper

/-! ## Data model -/

/-- Number of rows in the board (`#define ROWS 10`). -/
abbrev ROWS : Nat := 10

/-- Number of columns in the board (`#define COLS 10`). -/
abbrev COLS : Nat := 10

/-- Total number of mines on the board (`#define NUM_MINES 1`). -/
abbrev NUM_MINES : Nat := 1

/-- A cursor or position (row, col). -/
structure Position where
  row : Int
  col : Int
  deriving DecidableEq

/-- One cell of the board. -/
structure Cell where
  is_mine : Int
  is_revealed : Int
  is_flagged : Int
  neighbor_mines : Int
  deriving DecidableEq

/-- The 2D array `Cell cells[ROWS][COLS]`. -/
abbrev Grid : Type := Fin ROWS → Fin COLS → Cell

/-- The game board: grid of cells and game state info. -/
structure GameBoard where
  cells : Grid
  mines_remaining : Int
  flags_remaining : Int
  game_over : Int
  cursor_position : Position

/-- The bounds test `row >= 0 && row < ROWS && col >= 0 && col < COLS`. -/
abbrev InBounds (row col : Int) : Prop :=
  0 ≤ row ∧ row < ROWS ∧ 0 ≤ col ∧ col < COLS

/-- Row index of an in-bounds position. -/
def rowIx (row col : Int) (h : InBounds row col) : Fin ROWS :=
  ⟨row.toNat, by have := h.1; have := h.2.1; omega⟩

/-- Column index of an in-bounds position. -/
def colIx (row col : Int) (h : InBounds row col) : Fin COLS :=
  ⟨col.toNat, by have := h.2.2.1; have := h.2.2.2; omega⟩

/-- The cell `cells[row][col]` at an in-bounds position. -/
def cellAt (board : GameBoard) (row col : Int) (h : InBounds row col) : Cell :=
  board.cells (rowIx row col h) (colIx row col h)

/-- Assignment `cells[i][j] = v`. -/
def setCell (g : Grid) (i : Fin ROWS) (j : Fin COLS) (v : Cell) : Grid :=
  fun x y => if x = i ∧ y = j then v else g x y

/-! ## `init_board` -/

/-- The `init_board` function: every cell is zeroed by the two nested loops, then the counters,
`game_over` and the cursor are set. Every field of the board is overwritten,
so the result does not depend on the board passed in. -/
def init_board : GameBoard where
  cells := fun _ _ =>
    { is_mine := 0, is_revealed := 0, is_flagged := 0, neighbor_mines := 0 }
  mines_remaining := NUM_MINES
  flags_remaining := NUM_MINES
  game_over := 0
  cursor_position := { row := 0, col := 0 }

/-! ## `place_mines` -/

/-- The nine positions `(x, y)` visited by
`for x in i-1 ..= i+1, for y in j-1 ..= j+1`, in loop order. -/
def box (i j : Int) : List (Int × Int) :=
  [(i - 1, j - 1), (i - 1, j), (i - 1, j + 1),
   (i, j - 1), (i, j), (i, j + 1),
   (i + 1, j - 1), (i + 1, j), (i + 1, j + 1)]

/-- Body of the inner loop of `place_mines`:
`if (x in bounds && y in bounds) cells[x][y].neighbor_mines++`. -/
def bump (g : Grid) (x y : Int) : Grid :=
  if h : InBounds x y then
    let c := g (rowIx x y h) (colIx x y h)
    setCell g (rowIx x y h) (colIx x y h)
      { c with neighbor_mines := c.neighbor_mines + 1 }
  else g

/-- The two loops that increment the neighbor counts around a new mine. -/
def bump_box (g : Grid) (i j : Int) : Grid :=
  (box i j).foldl (fun g p => bump g p.1 p.2) g

/-- The `while (count < NUM_MINES)` loop of `place_mines`. Each iteration
takes one pair of `rand()` results; `none` when the supply runs out before
the loop has finished. -/
def place_mines_loop : List (Nat × Nat) → Nat → GameBoard → Option GameBoard
  | draws, count, board =>
    if count < NUM_MINES then
      match draws with
      | [] => none
      | (a, b) :: rest =>
        let i : Fin ROWS := ⟨a % ROWS, Nat.mod_lt _ (by decide)⟩
        let j : Fin COLS := ⟨b % COLS, Nat.mod_lt _ (by decide)⟩
        if (board.cells i j).is_mine = 0 then
          let g1 := setCell board.cells i j { board.cells i j with is_mine := 1 }
          place_mines_loop rest (count + 1)
            { board with cells := bump_box g1 (i : Nat) (j : Nat) }
        else
          place_mines_loop rest count board
    else some board

/-- The `place_mines` function, with the results of `rand()` supplied as a list. -/
def place_mines (board : GameBoard) (draws : List (Nat × Nat)) : Option GameBoard :=
  place_mines_loop draws 0 board

/-! ## `reveal_cell` -/

/-- Run `f` at each position of the list in turn, threading the board. -/
def reveal_each (f : GameBoard → Int → Int → Option GameBoard) :
    List (Int × Int) → GameBoard → Option GameBoard
  | [], b => some b
  | p :: rest, b =>
    match f b p.1 p.2 with
    | none => none
    | some b1 => reveal_each f rest b1

/-- The `reveal_cell` function with a bound on the depth of the recursion. -/
def reveal_cell_fuel : Nat → GameBoard → Int → Int → Option GameBoard
  | 0, _, _, _ => none
  | fuel + 1, board, row, col =>
    if h : InBounds row col then
      let r := rowIx row col h
      let c := colIx row col h
      if (board.cells r c).is_revealed ≠ 0 ∨ (board.cells r c).is_flagged ≠ 0 then
        some board
      else
        let b1 : GameBoard :=
          { board with cells := setCell board.cells r c { board.cells r c with is_revealed := 1 } }
        if (b1.cells r c).is_mine ≠ 0 then
          some { b1 with game_over := 1 }
        else if (b1.cells r c).neighbor_mines = 0 then
          reveal_each (reveal_cell_fuel fuel) (box row col) b1
        else
          some b1
    else
      some board

/-- The `reveal_cell` function. The depth bound `ROWS * COLS + 1` is never reached
(`reveal_cell_fuel_complete`). -/
def reveal_cell (board : GameBoard) (row col : Int) : GameBoard :=
  (reveal_cell_fuel (ROWS * COLS + 1) board row col).getD board

/-! ## `toggle_flag` -/

/-- Least value of a 32-bit C `int`. -/
def INT_MIN : Int := -2147483648

/-- Greatest value of a 32-bit C `int`. -/
def INT_MAX : Int := 2147483647

/-- The value of a C `int` after `x--`. On a value of the `int` range this is
`x - 1`, and `INT_MAX` when `x` is `INT_MIN` (two's complement wrap-around).
The test is written with `%` so that on integers outside that range, which no
C `int` holds, `int_inc` still undoes `int_dec`. -/
def int_dec (x : Int) : Int :=
  if x % 4294967296 = 2147483648 then x + 4294967295 else x - 1

/-- The value of a C `int` after `x++`. On a value of the `int` range this is
`x + 1`, and `INT_MIN` when `x` is `INT_MAX` (two's complement wrap-around). -/
def int_inc (x : Int) : Int :=
  if x % 4294967296 = 2147483647 then x - 4294967295 else x + 1

/-- The `toggle_flag` function. -/
def toggle_flag (board : GameBoard) (row col : Int) : GameBoard :=
  if h : InBounds row col then
    let r := rowIx row col h
    let c := colIx row col h
    if (board.cells r c).is_revealed = 0 then
      if (board.cells r c).is_flagged = 0 then
        { board with
          cells := setCell board.cells r c { board.cells r c with is_flagged := 1 }
          flags_remaining := int_dec board.flags_remaining }
      else
        { board with
          cells := setCell board.cells r c { board.cells r c with is_flagged := 0 }
          flags_remaining := int_inc board.flags_remaining }
    else board
  else board

/-! ## `check_win` -/

/-- The scan at the head of `check_win`: `false` when the function returns
early at a mine that is not flagged, `true` when both loops run to the end
and the win screen is shown. -/
def check_win (board : GameBoard) : Bool :=
  (List.finRange ROWS).all fun i =>
    (List.finRange COLS).all fun j =>
      !(decide ((board.cells i j).is_mine ≠ 0) && decide ((board.cells i j).is_flagged = 0))

/-! ## The key loop of `main` -/

/-- Key code `KEY_DOWN` of `ncurses.h`. -/
def KEY_DOWN : Int := 258

/-- Key code `KEY_UP` of `ncurses.h`. -/
def KEY_UP : Int := 259

/-- Key code `KEY_LEFT` of `ncurses.h`. -/
def KEY_LEFT : Int := 260

/-- Key code `KEY_RIGHT` of `ncurses.h`. -/
def KEY_RIGHT : Int := 261

/-- The `switch (ch)` of the key loop, without the call of `check_win`.
`%` of C truncates towards zero (`Int.tmod`); space is 32 and `h` is 104. -/
def key_switch (board : GameBoard) (ch : Int) : GameBoard :=
  if ch = KEY_UP then
    { board with cursor_position :=
        { board.cursor_position with
          row := (board.cursor_position.row - 1 + ROWS).tmod ROWS } }
  else if ch = KEY_DOWN then
    { board with cursor_position :=
        { board.cursor_position with
          row := (board.cursor_position.row + 1).tmod ROWS } }
  else if ch = KEY_LEFT then
    { board with cursor_position :=
        { board.cursor_position with
          col := (board.cursor_position.col - 1 + COLS).tmod COLS } }
  else if ch = KEY_RIGHT then
    { board with cursor_position :=
        { board.cursor_position with
          col := (board.cursor_position.col + 1).tmod COLS } }
  else if ch = 32 then
    reveal_cell board board.cursor_position.row board.cursor_position.col
  else if ch = 104 then
    toggle_flag board board.cursor_position.row board.cursor_position.col
  else board

/-- The loop `while ((ch = getch()) != 'q' && !board.game_over)` of `main`,
run on the list of keys that `getch` returns (`q` is 113). The result is the
board when the loop is left: by `q`, by `game_over`, by the `exit(0)` of
`check_win`, or because the keys are used up. Drawing does not touch the
board and is left out. -/
def main_loop : GameBoard → List Int → GameBoard
  | board, [] => board
  | board, ch :: rest =>
    if ch ≠ 113 ∧ board.game_over = 0 then
      let b1 := key_switch board ch
      if ch = 104 ∧ check_win b1 = true then b1
      else main_loop b1 rest
    else board

/-! ## Auxiliary notions for the proofs about `reveal_cell` -/

/-- The board after the assignment `cells[row][col].is_revealed = 1`. -/
def markRevealed (board : GameBoard) (row col : Int) (h : InBounds row col) : GameBoard :=
  { board with
    cells := setCell board.cells (rowIx row col h) (colIx row col h)
      { cellAt board row col h with is_revealed := 1 } }

/-- Board `b` comes from board `a` by turning `is_revealed` from 0 to 1 on
some cells that are not flagged and possibly setting `game_over` to 1. -/
def Grows (a b : GameBoard) : Prop :=
  (∀ i j, b.cells i j = a.cells i j ∨
    ((a.cells i j).is_revealed = 0 ∧ (a.cells i j).is_flagged = 0 ∧
      b.cells i j = { a.cells i j with is_revealed := 1 })) ∧
  b.mines_remaining = a.mines_remaining ∧
  b.flags_remaining = a.flags_remaining ∧
  (b.game_over = a.game_over ∨ b.game_over = 1) ∧
  b.cursor_position = a.cursor_position

/-- Number of cells whose `is_revealed` is 0. -/
def unrevealed (b : GameBoard) : Nat :=
  (Finset.univ.filter fun p : Fin ROWS × Fin COLS => (b.cells p.1 p.2).is_revealed = 0).card

/-! ## Example boards -/

/-- The board after `init_board` and `place_mines` when the first pair of
`rand()` results is `(3, 4)`: one mine, at row 3 and column 4. -/
def mine34 : GameBoard :=
  (place_mines init_board [(3, 4)]).getD init_board

/-- The board `mine34` after the mine at `(3, 4)` was revealed. -/
def lost34 : GameBoard :=
  reveal_cell mine34 3 4

/-- The board `mine34` with a flag on the cell `(0, 0)`. -/
def flagged00 : GameBoard :=
  toggle_flag mine34 0 0

/-! ## Counting mines -/

/-- Number of times the position `a` is visited by the list `l`. -/
def visits (l : List (Int × Int)) (a : Int × Int) : Nat :=
  l.countP fun p => decide (p = a)

/-- Whether position `p` is in bounds and holds a mine. -/
def isMineAt (b : GameBoard) (p : Int × Int) : Bool :=
  if h : InBounds p.1 p.2 then decide ((cellAt b p.1 p.2 h).is_mine ≠ 0) else false

/-- Number of positions of the list that are in bounds and hold a mine. -/
def minesAmong (b : GameBoard) (l : List (Int × Int)) : Nat :=
  l.countP (isMineAt b)

/-- The up-to-8 orthogonal and diagonal neighbours of `(i, j)`: the box without its centre. -/
def neighbours8 (i j : Int) : List (Int × Int) :=
  [(i - 1, j - 1), (i - 1, j), (i - 1, j + 1),
   (i, j - 1), (i, j + 1),
   (i + 1, j - 1), (i + 1, j), (i + 1, j + 1)]

/-- Number of cells of the grid with `is_mine` set. -/
def mineCount (b : GameBoard) : Nat :=
  (Finset.univ.filter fun p : Fin ROWS × Fin COLS => (b.cells p.1 p.2).is_mine ≠ 0).card

/-- The board after one successful iteration of the placement loop at `(i, j)`. -/
def withMine (board : GameBoard) (i : Fin ROWS) (j : Fin COLS) : GameBoard :=
  { board with
    cells := bump_box (setCell board.cells i j { board.cells i j with is_mine := 1 })
      ((i : Nat) : Int) ((j : Nat) : Int) }

/-- What the placement loop keeps true: nothing is revealed or flagged and
every `neighbor_mines` is the number of mines in the clipped 3x3 box around
the cell, centre included. -/
def Placed (b : GameBoard) : Prop :=
  ∀ i j, (b.cells i j).is_revealed = 0 ∧ (b.cells i j).is_flagged = 0 ∧
    (b.cells i j).neighbor_mines = minesAmong b (box ((i : Nat) : Int) ((j : Nat) : Int))

/-! ## Paths of zero-cells -/

/-- Two different cells that touch by a side or a corner (8-adjacency). -/
def Adjacent (p q : Fin ROWS × Fin COLS) : Prop :=
  p ≠ q ∧ (p.1 : Nat) ≤ q.1 + 1 ∧ (q.1 : Nat) ≤ p.1 + 1 ∧
    (p.2 : Nat) ≤ q.2 + 1 ∧ (q.2 : Nat) ≤ p.2 + 1

/-- There is an 8-adjacency path from the first cell to the second on which
every cell before the last has `neighbor_mines = 0`. -/
inductive ZeroPath (b : GameBoard) : Fin ROWS × Fin COLS → Fin ROWS × Fin COLS → Prop
  | last (p : Fin ROWS × Fin COLS) : ZeroPath b p p
  | step (p q s : Fin ROWS × Fin COLS) :
      (b.cells p.1 p.2).neighbor_mines = 0 → Adjacent p q → ZeroPath b q s → ZeroPath b p s

/-- The cell is revealed or flagged: `reveal_cell` returns at its guard there. -/
def Settled (b : GameBoard) (q : Fin ROWS × Fin COLS) : Prop :=
  (b.cells q.1 q.2).is_revealed ≠ 0 ∨ (b.cells q.1 q.2).is_flagged ≠ 0

/-- Every zero-cell without a mine that is revealed in `b` but not in `a`
has all its neighbours settled in `b`. -/
def Closed (a b : GameBoard) : Prop :=
  ∀ p : Fin ROWS × Fin COLS, (b.cells p.1 p.2).is_revealed ≠ 0 →
    (a.cells p.1 p.2).is_revealed = 0 → (a.cells p.1 p.2).neighbor_mines = 0 →
    (a.cells p.1 p.2).is_mine = 0 → ∀ q, Adjacent p q → Settled b q

/-! ## Reachable boards -/

/-- The boards a game can reach: the board after `init_board` and
`place_mines`, and from there any sequence of `reveal_cell` and `toggle_flag`
calls at arbitrary positions and of key presses handled by the `switch` of
`main`. -/
inductive Reachable : GameBoard → Prop
  | start (draws : List (Nat × Nat)) (b : GameBoard) :
      place_mines init_board draws = some b → Reachable b
  | reveal (b : GameBoard) (row col : Int) : Reachable b → Reachable (reveal_cell b row col)
  | flag (b : GameBoard) (row col : Int) : Reachable b → Reachable (toggle_flag b row col)
  | key (b : GameBoard) (ch : Int) : Reachable b → Reachable (key_switch b ch)

/-- Number of cells with `is_flagged` set. -/
def flaggedCount (b : GameBoard) : Nat :=
  (Finset.univ.filter fun p : Fin ROWS × Fin COLS => (b.cells p.1 p.2).is_flagged ≠ 0).card

/-- No cell is both revealed and flagged. -/
def NoRevealedFlag (b : GameBoard) : Prop :=
  ∀ i j, ¬ ((b.cells i j).is_revealed ≠ 0 ∧ (b.cells i j).is_flagged ≠ 0)

/-- The board `mine34` after a reveal at `(0, 0)` and a flag on the mine. -/
def played34 : GameBoard :=
  toggle_flag (reveal_cell mine34 0 0) 3 4

/-! # Properties -/

/-! ## Basic facts about indices and cell assignment -/

theorem rowIx_val (row col : Int) (h : InBounds row col) :
    ((rowIx row col h : Nat) : Int) = row := by
  have := h.1
  simp [rowIx, Int.toNat_of_nonneg this]

theorem colIx_val (row col : Int) (h : InBounds row col) :
    ((colIx row col h : Nat) : Int) = col := by
  have := h.2.2.1
  simp [colIx, Int.toNat_of_nonneg this]

theorem inBounds_fin (i : Fin ROWS) (j : Fin COLS) :
    InBounds ((i : Nat) : Int) ((j : Nat) : Int) := by
  have := i.isLt
  have := j.isLt
  refine ⟨?_, ?_, ?_, ?_⟩ <;> omega

theorem rowIx_fin (i : Fin ROWS) (j : Fin COLS) (h : InBounds ((i : Nat) : Int) ((j : Nat) : Int)) :
    rowIx _ _ h = i := by
  apply Fin.ext
  simp [rowIx]

theorem colIx_fin (i : Fin ROWS) (j : Fin COLS) (h : InBounds ((i : Nat) : Int) ((j : Nat) : Int)) :
    colIx _ _ h = j := by
  apply Fin.ext
  simp [colIx]

theorem rowIx_eq_iff (row col : Int) (h : InBounds row col) (i : Fin ROWS) :
    i = rowIx row col h ↔ ((i : Nat) : Int) = row := by
  constructor
  · intro e
    rw [e, rowIx_val]
  · intro e
    apply Fin.ext
    have := h.1
    simp only [rowIx]
    omega

theorem colIx_eq_iff (row col : Int) (h : InBounds row col) (j : Fin COLS) :
    j = colIx row col h ↔ ((j : Nat) : Int) = col := by
  constructor
  · intro e
    rw [e, colIx_val]
  · intro e
    apply Fin.ext
    have := h.2.2.1
    simp only [colIx]
    omega

@[simp] theorem setCell_same (g : Grid) (i : Fin ROWS) (j : Fin COLS) (v : Cell) :
    setCell g i j v i j = v := by
  simp [setCell]

theorem setCell_other (g : Grid) (i x : Fin ROWS) (j y : Fin COLS) (v : Cell)
    (h : ¬ (x = i ∧ y = j)) : setCell g i j v x y = g x y := by
  simp [setCell, h]

theorem GameBoard.ext_fields {a b : GameBoard} (hc : ∀ i j, a.cells i j = b.cells i j)
    (hm : a.mines_remaining = b.mines_remaining) (hf : a.flags_remaining = b.flags_remaining)
    (hg : a.game_over = b.game_over) (hp : a.cursor_position = b.cursor_position) : a = b := by
  cases a
  cases b
  simp only [GameBoard.mk.injEq]
  exact ⟨funext fun i => funext fun j => hc i j, hm, hf, hg, hp⟩

/-! ## Unfolding `reveal_cell` -/

theorem reveal_cell_fuel_oob (fuel : Nat) (board : GameBoard) (row col : Int)
    (h : ¬ InBounds row col) :
    reveal_cell_fuel (fuel + 1) board row col = some board := by
  simp only [reveal_cell_fuel, dif_neg h]

theorem reveal_cell_fuel_guard (fuel : Nat) (board : GameBoard) (row col : Int)
    (h : InBounds row col)
    (hg : (cellAt board row col h).is_revealed ≠ 0 ∨ (cellAt board row col h).is_flagged ≠ 0) :
    reveal_cell_fuel (fuel + 1) board row col = some board := by
  simp only [reveal_cell_fuel, dif_pos h]
  rw [if_pos (by simpa only [cellAt] using hg)]

theorem reveal_cell_fuel_mine (fuel : Nat) (board : GameBoard) (row col : Int)
    (h : InBounds row col)
    (hr : (cellAt board row col h).is_revealed = 0) (hf : (cellAt board row col h).is_flagged = 0)
    (hm : (cellAt board row col h).is_mine ≠ 0) :
    reveal_cell_fuel (fuel + 1) board row col
      = some { markRevealed board row col h with game_over := 1 } := by
  simp only [reveal_cell_fuel, dif_pos h]
  rw [if_neg (by simp only [cellAt] at hr hf; simp [hr, hf])]
  simp only [setCell_same]
  rw [if_pos (by simpa [cellAt] using hm)]
  rfl

theorem reveal_cell_fuel_number (fuel : Nat) (board : GameBoard) (row col : Int)
    (h : InBounds row col)
    (hr : (cellAt board row col h).is_revealed = 0) (hf : (cellAt board row col h).is_flagged = 0)
    (hm : (cellAt board row col h).is_mine = 0)
    (hn : (cellAt board row col h).neighbor_mines ≠ 0) :
    reveal_cell_fuel (fuel + 1) board row col = some (markRevealed board row col h) := by
  simp only [reveal_cell_fuel, dif_pos h]
  rw [if_neg (by simp only [cellAt] at hr hf; simp [hr, hf])]
  simp only [setCell_same]
  rw [if_neg (by simpa [cellAt] using hm), if_neg (by simpa [cellAt] using hn)]
  rfl

theorem reveal_cell_fuel_zero (fuel : Nat) (board : GameBoard) (row col : Int)
    (h : InBounds row col)
    (hr : (cellAt board row col h).is_revealed = 0) (hf : (cellAt board row col h).is_flagged = 0)
    (hm : (cellAt board row col h).is_mine = 0)
    (hn : (cellAt board row col h).neighbor_mines = 0) :
    reveal_cell_fuel (fuel + 1) board row col
      = reveal_each (reveal_cell_fuel fuel) (box row col) (markRevealed board row col h) := by
  simp only [reveal_cell_fuel, dif_pos h]
  rw [if_neg (by simp only [cellAt] at hr hf; simp [hr, hf])]
  simp only [setCell_same]
  rw [if_neg (by simpa [cellAt] using hm), if_pos (by simpa [cellAt] using hn)]
  rfl

theorem reveal_cell_fuel_cases (fuel : Nat) (board : GameBoard) (row col : Int) :
    (reveal_cell_fuel (fuel + 1) board row col = some board ∧
      (¬ InBounds row col ∨ ∃ h : InBounds row col,
        (cellAt board row col h).is_revealed ≠ 0 ∨ (cellAt board row col h).is_flagged ≠ 0)) ∨
    (∃ h : InBounds row col,
      (cellAt board row col h).is_revealed = 0 ∧ (cellAt board row col h).is_flagged = 0 ∧
      (cellAt board row col h).is_mine ≠ 0 ∧
      reveal_cell_fuel (fuel + 1) board row col
        = some { markRevealed board row col h with game_over := 1 }) ∨
    (∃ h : InBounds row col,
      (cellAt board row col h).is_revealed = 0 ∧ (cellAt board row col h).is_flagged = 0 ∧
      (cellAt board row col h).is_mine = 0 ∧ (cellAt board row col h).neighbor_mines ≠ 0 ∧
      reveal_cell_fuel (fuel + 1) board row col = some (markRevealed board row col h)) ∨
    (∃ h : InBounds row col,
      (cellAt board row col h).is_revealed = 0 ∧ (cellAt board row col h).is_flagged = 0 ∧
      (cellAt board row col h).is_mine = 0 ∧ (cellAt board row col h).neighbor_mines = 0 ∧
      reveal_cell_fuel (fuel + 1) board row col
        = reveal_each (reveal_cell_fuel fuel) (box row col) (markRevealed board row col h)) := by
  by_cases h : InBounds row col
  · by_cases hr : (cellAt board row col h).is_revealed = 0
    · by_cases hf : (cellAt board row col h).is_flagged = 0
      · by_cases hm : (cellAt board row col h).is_mine = 0
        · by_cases hn : (cellAt board row col h).neighbor_mines = 0
          · exact Or.inr (Or.inr (Or.inr
              ⟨h, hr, hf, hm, hn, reveal_cell_fuel_zero fuel board row col h hr hf hm hn⟩))
          · exact Or.inr (Or.inr (Or.inl
              ⟨h, hr, hf, hm, hn, reveal_cell_fuel_number fuel board row col h hr hf hm hn⟩))
        · exact Or.inr (Or.inl ⟨h, hr, hf, hm, reveal_cell_fuel_mine fuel board row col h hr hf hm⟩)
      · exact Or.inl ⟨reveal_cell_fuel_guard fuel board row col h (Or.inr hf), Or.inr ⟨h, Or.inr hf⟩⟩
    · exact Or.inl ⟨reveal_cell_fuel_guard fuel board row col h (Or.inl hr), Or.inr ⟨h, Or.inl hr⟩⟩
  · exact Or.inl ⟨reveal_cell_fuel_oob fuel board row col h, Or.inl h⟩

/-! ## What `reveal_cell` can change -/

theorem Grows.refl (a : GameBoard) : Grows a a :=
  ⟨fun _ _ => Or.inl rfl, rfl, rfl, Or.inl rfl, rfl⟩

theorem Grows.trans {a b c : GameBoard} (hab : Grows a b) (hbc : Grows b c) : Grows a c := by
  obtain ⟨h1, h2, h3, h4, h5⟩ := hab
  obtain ⟨k1, k2, k3, k4, k5⟩ := hbc
  refine ⟨fun i j => ?_, k2.trans h2, k3.trans h3, ?_, k5.trans h5⟩
  · rcases h1 i j with e | ⟨e1, e2, e3⟩
    · rcases k1 i j with f | ⟨f1, f2, f3⟩
      · exact Or.inl (f.trans e)
      · rw [e] at f1 f2 f3
        exact Or.inr ⟨f1, f2, f3⟩
    · rcases k1 i j with f | ⟨f1, _, _⟩
      · exact Or.inr ⟨e1, e2, f.trans e3⟩
      · rw [e3] at f1
        simp at f1
  · rcases k4 with f | f
    · rcases h4 with e | e
      · exact Or.inl (f.trans e)
      · exact Or.inr (f.trans e)
    · exact Or.inr f

theorem Grows.is_mine {a b : GameBoard} (h : Grows a b) (i : Fin ROWS) (j : Fin COLS) :
    (b.cells i j).is_mine = (a.cells i j).is_mine := by
  rcases h.1 i j with e | ⟨_, _, e⟩ <;> rw [e]

theorem Grows.neighbor_mines {a b : GameBoard} (h : Grows a b) (i : Fin ROWS) (j : Fin COLS) :
    (b.cells i j).neighbor_mines = (a.cells i j).neighbor_mines := by
  rcases h.1 i j with e | ⟨_, _, e⟩ <;> rw [e]

theorem Grows.is_flagged {a b : GameBoard} (h : Grows a b) (i : Fin ROWS) (j : Fin COLS) :
    (b.cells i j).is_flagged = (a.cells i j).is_flagged := by
  rcases h.1 i j with e | ⟨_, _, e⟩ <;> rw [e]

theorem Grows.revealed_mono {a b : GameBoard} (h : Grows a b) (i : Fin ROWS) (j : Fin COLS)
    (hr : (a.cells i j).is_revealed ≠ 0) : (b.cells i j).is_revealed ≠ 0 := by
  rcases h.1 i j with e | ⟨e, _, _⟩
  · rwa [e]
  · exact absurd e hr

theorem markRevealed_cells_same (board : GameBoard) (row col : Int) (h : InBounds row col) :
    (markRevealed board row col h).cells (rowIx row col h) (colIx row col h)
      = { cellAt board row col h with is_revealed := 1 } := by
  simp [markRevealed]

theorem markRevealed_cells_other (board : GameBoard) (row col : Int) (h : InBounds row col)
    (i : Fin ROWS) (j : Fin COLS) (hne : ¬ (i = rowIx row col h ∧ j = colIx row col h)) :
    (markRevealed board row col h).cells i j = board.cells i j := by
  simp only [markRevealed]
  exact setCell_other _ _ _ _ _ _ hne

theorem markRevealed_grows (board : GameBoard) (row col : Int) (h : InBounds row col)
    (hr : (cellAt board row col h).is_revealed = 0) (hf : (cellAt board row col h).is_flagged = 0) :
    Grows board (markRevealed board row col h) := by
  refine ⟨fun i j => ?_, rfl, rfl, Or.inl rfl, rfl⟩
  by_cases e : i = rowIx row col h ∧ j = colIx row col h
  · obtain ⟨e1, e2⟩ := e
    subst e1 e2
    exact Or.inr ⟨hr, hf, markRevealed_cells_same board row col h⟩
  · exact Or.inl (markRevealed_cells_other board row col h i j e)

theorem Grows.set_game_over {a b : GameBoard} (h : Grows a b) :
    Grows a { b with game_over := 1 } :=
  ⟨h.1, h.2.1, h.2.2.1, Or.inr rfl, h.2.2.2.2⟩

theorem reveal_each_grows (f : GameBoard → Int → Int → Option GameBoard)
    (hf : ∀ b r c b1, f b r c = some b1 → Grows b b1) :
    ∀ (l : List (Int × Int)) (b b1 : GameBoard), reveal_each f l b = some b1 → Grows b b1 := by
  intro l
  induction l with
  | nil =>
    intro b b1 h
    simp only [reveal_each, Option.some.injEq] at h
    subst h
    exact Grows.refl b
  | cons p rest ih =>
    intro b b1 h
    simp only [reveal_each] at h
    cases hp : f b p.1 p.2 with
    | none => simp [hp] at h
    | some b2 =>
      simp only [hp] at h
      exact (hf b p.1 p.2 b2 hp).trans (ih b2 b1 h)

theorem reveal_cell_fuel_grows :
    ∀ (fuel : Nat) (b : GameBoard) (row col : Int) (b1 : GameBoard),
      reveal_cell_fuel fuel b row col = some b1 → Grows b b1 := by
  intro fuel
  induction fuel with
  | zero =>
    intro b row col b1 h
    simp [reveal_cell_fuel] at h
  | succ n ih =>
    intro b row col b1 h
    rcases reveal_cell_fuel_cases n b row col with
      ⟨e, _⟩ | ⟨hin, hr, hf, _, e⟩ | ⟨hin, hr, hf, _, _, e⟩ | ⟨hin, hr, hf, _, _, e⟩
    · rw [e] at h
      cases h
      exact Grows.refl b
    · rw [e] at h
      cases h
      exact (markRevealed_grows b row col hin hr hf).set_game_over
    · rw [e] at h
      cases h
      exact markRevealed_grows b row col hin hr hf
    · rw [e] at h
      exact (markRevealed_grows b row col hin hr hf).trans
        (reveal_each_grows _ ih _ _ _ h)

/-! ## Termination of `reveal_cell` -/

theorem unrevealed_le (b : GameBoard) : unrevealed b ≤ ROWS * COLS := by
  unfold unrevealed
  calc (Finset.univ.filter fun p : Fin ROWS × Fin COLS => (b.cells p.1 p.2).is_revealed = 0).card
      ≤ (Finset.univ : Finset (Fin ROWS × Fin COLS)).card := Finset.card_filter_le _ _
    _ = ROWS * COLS := by simp

theorem Grows.unrevealed_mono {a b : GameBoard} (h : Grows a b) : unrevealed b ≤ unrevealed a := by
  unfold unrevealed
  apply Finset.card_le_card
  intro p hp
  simp only [Finset.mem_filter, Finset.mem_univ, true_and] at hp ⊢
  by_contra hne
  exact h.revealed_mono p.1 p.2 hne hp

theorem markRevealed_unrevealed_lt (board : GameBoard) (row col : Int) (h : InBounds row col)
    (hr : (cellAt board row col h).is_revealed = 0) :
    unrevealed (markRevealed board row col h) < unrevealed board := by
  unfold unrevealed
  apply Finset.card_lt_card
  rw [Finset.ssubset_iff_of_subset]
  · refine ⟨(rowIx row col h, colIx row col h), ?_, ?_⟩
    · simpa [cellAt] using hr
    · simp [markRevealed_cells_same]
  · intro p hp
    simp only [Finset.mem_filter, Finset.mem_univ, true_and] at hp ⊢
    by_cases e : p.1 = rowIx row col h ∧ p.2 = colIx row col h
    · rw [e.1, e.2, markRevealed_cells_same] at hp
      simp at hp
    · rwa [markRevealed_cells_other board row col h p.1 p.2 e] at hp

theorem reveal_each_total (f : GameBoard → Int → Int → Option GameBoard) (n : Nat)
    (hg : ∀ b r c b1, f b r c = some b1 → Grows b b1)
    (ht : ∀ b r c, unrevealed b < n → ∃ b1, f b r c = some b1) :
    ∀ (l : List (Int × Int)) (b : GameBoard), unrevealed b < n →
      ∃ b1, reveal_each f l b = some b1 := by
  intro l
  induction l with
  | nil =>
    intro b _
    exact ⟨b, rfl⟩
  | cons p rest ih =>
    intro b hb
    obtain ⟨b2, h2⟩ := ht b p.1 p.2 hb
    have hle := (hg b p.1 p.2 b2 h2).unrevealed_mono
    obtain ⟨b3, h3⟩ := ih b2 (by omega)
    exact ⟨b3, by simp only [reveal_each, h2, h3]⟩

/-- A call of `reveal_cell` needs a stack no deeper than the number of
unrevealed cells plus one. -/
theorem reveal_cell_fuel_total :
    ∀ (fuel : Nat) (b : GameBoard) (row col : Int), unrevealed b < fuel →
      ∃ b1, reveal_cell_fuel fuel b row col = some b1 := by
  intro fuel
  induction fuel with
  | zero =>
    intro b row col h
    omega
  | succ n ih =>
    intro b row col h
    rcases reveal_cell_fuel_cases n b row col with
      ⟨e, _⟩ | ⟨hin, hr, hf, _, e⟩ | ⟨hin, hr, hf, _, _, e⟩ | ⟨hin, hr, hf, _, _, e⟩
    · exact ⟨_, e⟩
    · exact ⟨_, e⟩
    · exact ⟨_, e⟩
    · rw [e]
      have hlt := markRevealed_unrevealed_lt b row col hin hr
      exact reveal_each_total _ n (reveal_cell_fuel_grows n) ih _ _ (by omega)

theorem reveal_each_mono (f g : GameBoard → Int → Int → Option GameBoard)
    (hfg : ∀ b r c b1, f b r c = some b1 → g b r c = some b1) :
    ∀ (l : List (Int × Int)) (b b1 : GameBoard),
      reveal_each f l b = some b1 → reveal_each g l b = some b1 := by
  intro l
  induction l with
  | nil =>
    intro b b1 h
    simpa only [reveal_each] using h
  | cons p rest ih =>
    intro b b1 h
    simp only [reveal_each] at h ⊢
    cases hp : f b p.1 p.2 with
    | none => simp [hp] at h
    | some b2 =>
      simp only [hp] at h
      simp only [hfg b p.1 p.2 b2 hp]
      exact ih b2 b1 h

theorem reveal_cell_fuel_succ :
    ∀ (fuel : Nat) (b : GameBoard) (row col : Int) (b1 : GameBoard),
      reveal_cell_fuel fuel b row col = some b1 →
      reveal_cell_fuel (fuel + 1) b row col = some b1 := by
  intro fuel
  induction fuel with
  | zero =>
    intro b row col b1 h
    simp [reveal_cell_fuel] at h
  | succ n ih =>
    intro b row col b1 h
    rcases reveal_cell_fuel_cases n b row col with
      ⟨e, hc⟩ | ⟨hin, hr, hf, hm, e⟩ | ⟨hin, hr, hf, hm, hn, e⟩ | ⟨hin, hr, hf, hm, hn, e⟩
    · rw [e] at h
      rw [← h]
      rcases hc with hc | ⟨hin, hc⟩
      · exact reveal_cell_fuel_oob _ b row col hc
      · exact reveal_cell_fuel_guard _ b row col hin hc
    · rw [e] at h
      rw [← h]
      exact reveal_cell_fuel_mine _ b row col hin hr hf hm
    · rw [e] at h
      rw [← h]
      exact reveal_cell_fuel_number _ b row col hin hr hf hm hn
    · rw [e] at h
      rw [reveal_cell_fuel_zero _ b row col hin hr hf hm hn]
      exact reveal_each_mono _ _ ih _ _ _ h

theorem reveal_cell_fuel_le (m n : Nat) (hmn : m ≤ n) (b : GameBoard) (row col : Int)
    (b1 : GameBoard) (h : reveal_cell_fuel m b row col = some b1) :
    reveal_cell_fuel n b row col = some b1 := by
  induction hmn with
  | refl => exact h
  | step _ ih => exact reveal_cell_fuel_succ _ b row col b1 ih

/-- The depth bound used by `reveal_cell` is enough on every board. -/
theorem reveal_cell_fuel_complete (b : GameBoard) (row col : Int) :
    reveal_cell_fuel (ROWS * COLS + 1) b row col = some (reveal_cell b row col) := by
  have hlt : unrevealed b < ROWS * COLS + 1 := Nat.lt_succ_of_le (unrevealed_le b)
  obtain ⟨b1, h1⟩ := reveal_cell_fuel_total _ b row col hlt
  simp only [reveal_cell, h1, Option.getD_some]

/-- Any bound that lets the recursion finish gives the board of `reveal_cell`. -/
theorem reveal_cell_fuel_eq (fuel : Nat) (b : GameBoard) (row col : Int) (b1 : GameBoard)
    (h : reveal_cell_fuel fuel b row col = some b1) : b1 = reveal_cell b row col := by
  have h1 := reveal_cell_fuel_le fuel (max fuel (ROWS * COLS + 1)) (le_max_left _ _) b row col b1 h
  have h2 := reveal_cell_fuel_le (ROWS * COLS + 1) (max fuel (ROWS * COLS + 1)) (le_max_right _ _)
    b row col _ (reveal_cell_fuel_complete b row col)
  rw [h1] at h2
  exact Option.some.inj h2

theorem reveal_cell_grows (b : GameBoard) (row col : Int) : Grows b (reveal_cell b row col) :=
  reveal_cell_fuel_grows _ b row col _ (reveal_cell_fuel_complete b row col)

/-! ## Claims about termination and the guard of `reveal_cell` -/

/-- C2. `reveal_cell` terminates on every board and every `(row, col)`: a call
stack of depth `unrevealed board + 1` is enough for the recursion to return a
board, every larger bound returns the same board, which is the board of
`reveal_cell`, and the number of unrevealed cells has not gone up. -/
theorem reveal_cell_terminates (board : GameBoard) (row col : Int) :
    ∃ b1, reveal_cell_fuel (unrevealed board + 1) board row col = some b1 ∧
      (∀ fuel, unrevealed board + 1 ≤ fuel → reveal_cell_fuel fuel board row col = some b1) ∧
      b1 = reveal_cell board row col ∧
      unrevealed b1 ≤ unrevealed board := by
  obtain ⟨b1, h1⟩ := reveal_cell_fuel_total (unrevealed board + 1) board row col (Nat.lt_succ_self _)
  exact ⟨b1, h1, fun fuel hle => reveal_cell_fuel_le _ fuel hle board row col b1 h1,
    reveal_cell_fuel_eq _ board row col b1 h1,
    (reveal_cell_fuel_grows _ board row col b1 h1).unrevealed_mono⟩

theorem inBounds_3_4 : InBounds 3 4 := by decide

theorem inBounds_0_0 : InBounds 0 0 := by decide

theorem inBounds_2_3 : InBounds 2 3 := by decide

/-- C6. Revealing a mine that is in bounds, not revealed and not flagged
sets `game_over`, marks the cell revealed and changes no other cell, whatever
the `neighbor_mines` of the mine is; the other fields of the cell and of the
board stay as they were. -/
theorem reveal_cell_mine_hit (board : GameBoard) (row col : Int) (h : InBounds row col)
    (hm : (cellAt board row col h).is_mine ≠ 0)
    (hr : (cellAt board row col h).is_revealed = 0)
    (hf : (cellAt board row col h).is_flagged = 0) :
    (reveal_cell board row col).game_over = 1 ∧
    cellAt (reveal_cell board row col) row col h
      = { cellAt board row col h with is_revealed := 1 } ∧
    (∀ i j, ¬ (i = rowIx row col h ∧ j = colIx row col h) →
      (reveal_cell board row col).cells i j = board.cells i j) ∧
    (reveal_cell board row col).mines_remaining = board.mines_remaining ∧
    (reveal_cell board row col).flags_remaining = board.flags_remaining ∧
    (reveal_cell board row col).cursor_position = board.cursor_position := by
  have e := reveal_cell_fuel_eq _ board row col _
    (reveal_cell_fuel_mine 0 board row col h hr hf hm)
  rw [← e]
  refine ⟨rfl, ?_, ?_, rfl, rfl, rfl⟩
  · exact markRevealed_cells_same board row col h
  · intro i j hne
    exact markRevealed_cells_other board row col h i j hne

theorem reveal_cell_mine_hit_witness :
    (cellAt mine34 3 4 inBounds_3_4).is_mine ≠ 0 ∧
    (cellAt mine34 3 4 inBounds_3_4).is_revealed = 0 ∧
    (cellAt mine34 3 4 inBounds_3_4).is_flagged = 0 ∧
    (reveal_cell mine34 3 4).game_over = 1 ∧
    cellAt (reveal_cell mine34 3 4) 3 4 inBounds_3_4
      = { cellAt mine34 3 4 inBounds_3_4 with is_revealed := 1 } ∧
    (∀ i j, ¬ (i = rowIx 3 4 inBounds_3_4 ∧ j = colIx 3 4 inBounds_3_4) →
      (reveal_cell mine34 3 4).cells i j = mine34.cells i j) ∧
    (reveal_cell mine34 3 4).mines_remaining = mine34.mines_remaining ∧
    (reveal_cell mine34 3 4).flags_remaining = mine34.flags_remaining ∧
    (reveal_cell mine34 3 4).cursor_position = mine34.cursor_position :=
  ⟨by decide, by decide, by decide,
    reveal_cell_mine_hit mine34 3 4 inBounds_3_4 (by decide) (by decide) (by decide)⟩

/-- C8. Revealing a flagged cell is a no-op: when `(row, col)` is in bounds and
its cell is flagged, `reveal_cell` returns the board unchanged in every field,
whether the cell is a mine, a zero-cell or anything else. -/
theorem reveal_cell_flagged (board : GameBoard) (row col : Int) (h : InBounds row col)
    (hf : (cellAt board row col h).is_flagged ≠ 0) :
    reveal_cell board row col = board :=
  (reveal_cell_fuel_eq _ board row col _
    (reveal_cell_fuel_guard 0 board row col h (Or.inr hf))).symm

theorem reveal_cell_flagged_witness :
    (cellAt flagged00 0 0 inBounds_0_0).is_flagged ≠ 0 ∧
    reveal_cell flagged00 0 0 = flagged00 :=
  ⟨by decide, reveal_cell_flagged flagged00 0 0 inBounds_0_0 (by decide)⟩

/-- C9. Revealing an out-of-bounds cell is a no-op: when `row < 0`,
`row >= ROWS`, `col < 0` or `col >= COLS`, `reveal_cell` returns the board
unchanged, a single call frame is enough (no recursion), and the position is
not `InBounds`, so that no index into the grid can be formed from it: the
bounds test is decided before any cell is read. -/
theorem reveal_cell_out_of_bounds (board : GameBoard) (row col : Int)
    (h : row < 0 ∨ row ≥ ROWS ∨ col < 0 ∨ col ≥ COLS) :
    reveal_cell board row col = board ∧
    (∀ fuel, reveal_cell_fuel (fuel + 1) board row col = some board) ∧
    ¬ InBounds row col := by
  have hn : ¬ InBounds row col := by
    intro hin
    obtain ⟨h1, h2, h3, h4⟩ := hin
    omega
  exact ⟨(reveal_cell_fuel_eq _ board row col _ (reveal_cell_fuel_oob 0 board row col hn)).symm,
    fun fuel => reveal_cell_fuel_oob fuel board row col hn, hn⟩

theorem reveal_cell_out_of_bounds_witness :
    ((-1 : Int) < 0 ∨ (-1 : Int) ≥ ROWS ∨ (10 : Int) < 0 ∨ (10 : Int) ≥ COLS) ∧
    reveal_cell mine34 (-1) 10 = mine34 ∧
    (∀ fuel, reveal_cell_fuel (fuel + 1) mine34 (-1) 10 = some mine34) ∧
    ¬ InBounds (-1) 10 :=
  ⟨by decide, reveal_cell_out_of_bounds mine34 (-1) 10 (by decide)⟩

/-! ## `toggle_flag` -/

theorem int_dec_eq (x : Int) (h : INT_MIN < x) (h1 : x ≤ INT_MAX) : int_dec x = x - 1 := by
  unfold INT_MIN at h
  unfold INT_MAX at h1
  unfold int_dec
  rw [if_neg]
  omega

theorem int_inc_eq (x : Int) (h : INT_MIN ≤ x) (h1 : x < INT_MAX) : int_inc x = x + 1 := by
  unfold INT_MIN at h
  unfold INT_MAX at h1
  unfold int_inc
  rw [if_neg]
  omega

/-- On the `int` range `int_dec` is subtraction modulo `2^32`, read as a
signed value. -/
theorem int_dec_eq_wrap (x : Int) (h : INT_MIN ≤ x) (h1 : x ≤ INT_MAX) :
    int_dec x = (x - 1 + 2147483648) % 4294967296 - 2147483648 := by
  unfold INT_MIN at h
  unfold INT_MAX at h1
  unfold int_dec
  split_ifs <;> omega

/-- On the `int` range `int_inc` is addition modulo `2^32`, read as a signed
value. -/
theorem int_inc_eq_wrap (x : Int) (h : INT_MIN ≤ x) (h1 : x ≤ INT_MAX) :
    int_inc x = (x + 1 + 2147483648) % 4294967296 - 2147483648 := by
  unfold INT_MIN at h
  unfold INT_MAX at h1
  unfold int_inc
  split_ifs <;> omega

theorem int_inc_dec (x : Int) : int_inc (int_dec x) = x := by
  unfold int_inc int_dec
  split_ifs <;> omega

theorem int_dec_inc (x : Int) : int_dec (int_inc x) = x := by
  unfold int_inc int_dec
  split_ifs <;> omega

theorem toggle_flag_set (board : GameBoard) (row col : Int) (h : InBounds row col)
    (hr : (cellAt board row col h).is_revealed = 0)
    (hf : (cellAt board row col h).is_flagged = 0) :
    toggle_flag board row col =
      { board with
        cells := setCell board.cells (rowIx row col h) (colIx row col h)
          { cellAt board row col h with is_flagged := 1 }
        flags_remaining := int_dec board.flags_remaining } := by
  simp only [cellAt] at hr hf
  simp only [toggle_flag, dif_pos h, hr, hf, if_true, cellAt]

theorem toggle_flag_clear (board : GameBoard) (row col : Int) (h : InBounds row col)
    (hr : (cellAt board row col h).is_revealed = 0)
    (hf : (cellAt board row col h).is_flagged ≠ 0) :
    toggle_flag board row col =
      { board with
        cells := setCell board.cells (rowIx row col h) (colIx row col h)
          { cellAt board row col h with is_flagged := 0 }
        flags_remaining := int_inc board.flags_remaining } := by
  simp only [cellAt] at hr hf
  simp only [toggle_flag, dif_pos h, hr, hf, if_true, if_false, cellAt]

/-- C10, as the code has it. For an in-bounds unrevealed cell, two calls of
`toggle_flag` bring `flags_remaining` back to its value and `is_flagged` of
the cell back to its truth value: to 0 when the cell was not flagged, and to
1 when it was flagged. -/
theorem toggle_flag_twice (board : GameBoard) (row col : Int) (h : InBounds row col)
    (hr : (cellAt board row col h).is_revealed = 0) :
    (toggle_flag (toggle_flag board row col) row col).flags_remaining = board.flags_remaining ∧
    ((cellAt board row col h).is_flagged = 0 →
      (cellAt (toggle_flag (toggle_flag board row col) row col) row col h).is_flagged = 0) ∧
    ((cellAt board row col h).is_flagged ≠ 0 →
      (cellAt (toggle_flag (toggle_flag board row col) row col) row col h).is_flagged = 1) := by
  by_cases hf : (cellAt board row col h).is_flagged = 0
  · have e1 := toggle_flag_set board row col h hr hf
    have hr1 : (cellAt (toggle_flag board row col) row col h).is_revealed = 0 := by
      rw [e1]
      simpa [cellAt] using hr
    have hf1 : (cellAt (toggle_flag board row col) row col h).is_flagged ≠ 0 := by
      rw [e1]
      simp [cellAt]
    rw [toggle_flag_clear _ row col h hr1 hf1, e1]
    refine ⟨int_inc_dec _, fun _ => by simp [cellAt], fun hne => absurd hf hne⟩
  · have e1 := toggle_flag_clear board row col h hr hf
    have hr1 : (cellAt (toggle_flag board row col) row col h).is_revealed = 0 := by
      rw [e1]
      simpa [cellAt] using hr
    have hf1 : (cellAt (toggle_flag board row col) row col h).is_flagged = 0 := by
      rw [e1]
      simp [cellAt]
    rw [toggle_flag_set _ row col h hr1 hf1, e1]
    refine ⟨int_dec_inc _, fun he => absurd he hf, fun _ => by simp [cellAt]⟩

theorem toggle_flag_twice_witness :
    (cellAt flagged00 0 0 inBounds_0_0).is_revealed = 0 ∧
    (toggle_flag (toggle_flag flagged00 0 0) 0 0).flags_remaining = flagged00.flags_remaining ∧
    ((cellAt flagged00 0 0 inBounds_0_0).is_flagged = 0 →
      (cellAt (toggle_flag (toggle_flag flagged00 0 0) 0 0) 0 0 inBounds_0_0).is_flagged = 0) ∧
    ((cellAt flagged00 0 0 inBounds_0_0).is_flagged ≠ 0 →
      (cellAt (toggle_flag (toggle_flag flagged00 0 0) 0 0) 0 0 inBounds_0_0).is_flagged = 1) :=
  ⟨by decide, toggle_flag_twice flagged00 0 0 inBounds_0_0 (by decide)⟩

/-- C10 fails as stated: the cell `(0, 0)` of `flagged00` is in bounds,
unrevealed and flagged, and after two calls of `toggle_flag` its `is_flagged`
is 1, not false. -/
theorem toggle_flag_twice_not_false :
    InBounds 0 0 ∧
    (cellAt flagged00 0 0 inBounds_0_0).is_revealed = 0 ∧
    (cellAt (toggle_flag (toggle_flag flagged00 0 0) 0 0) 0 0 inBounds_0_0).is_flagged ≠ 0 := by
  decide

/-! ## `game_over` and the key loop -/

/-- C7, as the code has it. Once `game_over` is set the key loop of `main`
takes no further action: for every board with `game_over` non-zero and every
list of keys, the loop is left at its test, before the `switch`, so neither
`reveal_cell` nor `toggle_flag` is called and the board is unchanged. -/
theorem main_loop_game_over (board : GameBoard) (keys : List Int)
    (h : board.game_over ≠ 0) : main_loop board keys = board := by
  cases keys with
  | nil => rfl
  | cons ch rest =>
    simp only [main_loop]
    rw [if_neg]
    intro hc
    exact h hc.2

theorem main_loop_game_over_witness :
    lost34.game_over ≠ 0 ∧ main_loop lost34 [32, 104, 259] = lost34 :=
  ⟨by decide, main_loop_game_over lost34 [32, 104, 259] (by decide)⟩

/-- C7 fails as stated: on the board `lost34`, where revealing the mine has
set `game_over`, `toggle_flag` at `(0, 0)` still sets the flag and lowers
`flags_remaining`, and `reveal_cell` at `(2, 3)` still reveals the cell. -/
theorem game_over_does_not_block :
    lost34.game_over = 1 ∧
    (toggle_flag lost34 0 0).flags_remaining ≠ lost34.flags_remaining ∧
    (cellAt (toggle_flag lost34 0 0) 0 0 inBounds_0_0).is_flagged
      ≠ (cellAt lost34 0 0 inBounds_0_0).is_flagged ∧
    (cellAt (reveal_cell lost34 2 3) 2 3 inBounds_2_3).is_revealed
      ≠ (cellAt lost34 2 3 inBounds_2_3).is_revealed := by
  decide

/-! ## `check_win` -/

theorem check_win_iff (board : GameBoard) :
    check_win board = true ↔
      ∀ i j, (board.cells i j).is_mine ≠ 0 → (board.cells i j).is_flagged ≠ 0 := by
  simp only [check_win, List.all_eq_true, List.mem_finRange, true_implies, Bool.not_eq_true,
    Bool.and_eq_false_iff, decide_eq_false_iff_not, Bool.not_eq_eq_eq_not, Bool.not_true]
  constructor
  · intro h i j hm
    rcases h i j with h1 | h1
    · exact absurd hm h1
    · exact h1
  · intro h i j
    by_cases hm : (board.cells i j).is_mine ≠ 0
    · exact Or.inr (h i j hm)
    · exact Or.inl hm

/-- C5. The win test of `check_win` succeeds exactly when every mine cell is
flagged; flags on other cells and `is_revealed` play no part. On the board
with one mine at `(3, 4)`, the test succeeds after `toggle_flag` at `(3, 4)`
and fails after `toggle_flag` at any other single cell. -/
theorem check_win_iff_mines_flagged :
    (∀ board : GameBoard, check_win board = true ↔
      ∀ i j, (board.cells i j).is_mine ≠ 0 → (board.cells i j).is_flagged ≠ 0) ∧
    (∀ a b : GameBoard,
      (∀ i j, (a.cells i j).is_mine = (b.cells i j).is_mine ∧
        ((a.cells i j).is_mine ≠ 0 → (a.cells i j).is_flagged = (b.cells i j).is_flagged)) →
      check_win a = check_win b) ∧
    place_mines init_board [(3, 4)] = some mine34 ∧
    (∀ i j, (mine34.cells i j).is_mine ≠ 0 ↔ (i = 3 ∧ j = 4)) ∧
    check_win (toggle_flag mine34 3 4) = true ∧
    (∀ i j : Fin 10, ¬ (i = 3 ∧ j = 4) →
      check_win (toggle_flag mine34 ((i : Nat) : Int) ((j : Nat) : Int)) = false) := by
  refine ⟨check_win_iff, ?_, rfl, by decide, by decide, by decide⟩
  intro a b hab
  rw [Bool.eq_iff_iff, check_win_iff, check_win_iff]
  constructor
  · intro h i j hm
    rw [← (hab i j).1] at hm
    rw [← (hab i j).2 hm]
    exact h i j hm
  · intro h i j hm
    rw [(hab i j).2 hm]
    rw [(hab i j).1] at hm
    exact h i j hm

/-! ## The placement loop -/

theorem visits_nodup (a : Int × Int) :
    ∀ l : List (Int × Int), l.Nodup → visits l a = if a ∈ l then 1 else 0 := by
  intro l
  induction l with
  | nil => intro _; simp [visits]
  | cons p rest ih =>
    intro hnd
    rw [List.nodup_cons] at hnd
    have ih1 := ih hnd.2
    simp only [visits, List.countP_cons, List.mem_cons] at ih1 ⊢
    rw [ih1]
    by_cases e : p = a
    · subst e
      simp [hnd.1]
    · have e1 : ¬ a = p := fun h => e h.symm
      simp [e, e1]

theorem mem_box (i j x y : Int) :
    (x, y) ∈ box i j ↔ (i - 1 ≤ x ∧ x ≤ i + 1 ∧ j - 1 ≤ y ∧ y ≤ j + 1) := by
  simp only [box, List.mem_cons, Prod.mk.injEq, List.mem_singleton, List.not_mem_nil, or_false]
  omega

theorem box_nodup (i j : Int) : (box i j).Nodup := by
  simp only [box, List.nodup_cons, List.mem_cons, Prod.mk.injEq, List.mem_singleton,
    List.not_mem_nil, not_false_eq_true, List.nodup_nil, and_true, not_or, not_and]
  omega

theorem visits_box (i j x y : Int) :
    visits (box i j) (x, y) = if (i - 1 ≤ x ∧ x ≤ i + 1 ∧ j - 1 ≤ y ∧ y ≤ j + 1) then 1 else 0 := by
  rw [visits_nodup _ _ (box_nodup i j)]
  simp only [mem_box]

theorem visits_box_symm (i j x y : Int) : visits (box i j) (x, y) = visits (box x y) (i, j) := by
  rw [visits_box, visits_box]
  congr 1
  apply propext
  constructor <;> intro h <;> omega

theorem bump_apply (g : Grid) (px py : Int) (x : Fin ROWS) (y : Fin COLS) :
    bump g px py x y =
      if ((x : Nat) : Int) = px ∧ ((y : Nat) : Int) = py then
        { g x y with neighbor_mines := (g x y).neighbor_mines + 1 }
      else g x y := by
  unfold bump
  by_cases h : InBounds px py
  · simp only [dif_pos h, setCell, rowIx_eq_iff, colIx_eq_iff]
    split_ifs with e
    · have e1 := (rowIx_eq_iff px py h x).2 e.1
      have e2 := (colIx_eq_iff px py h y).2 e.2
      subst e1 e2
      rfl
    · rfl
  · simp only [dif_neg h]
    rw [if_neg]
    intro e
    apply h
    have := inBounds_fin x y
    rw [e.1, e.2] at this
    exact this

theorem bump_fold_apply (x : Fin ROWS) (y : Fin COLS) :
    ∀ (l : List (Int × Int)) (g : Grid),
      (l.foldl (fun g p => bump g p.1 p.2) g) x y =
        { g x y with neighbor_mines :=
            (g x y).neighbor_mines + visits l (((x : Nat) : Int), ((y : Nat) : Int)) } := by
  intro l
  induction l with
  | nil => intro g; simp [visits]
  | cons p rest ih =>
    intro g
    simp only [List.foldl_cons]
    rw [ih, bump_apply]
    simp only [visits, List.countP_cons] at *
    by_cases e : ((x : Nat) : Int) = p.1 ∧ ((y : Nat) : Int) = p.2
    · have e1 : p = (((x : Nat) : Int), ((y : Nat) : Int)) := Prod.ext e.1.symm e.2.symm
      rw [if_pos e]
      subst e1
      simp only [decide_True, if_true, Cell.mk.injEq, true_and]
      push_cast
      omega
    · have e1 : ¬ p = (((x : Nat) : Int), ((y : Nat) : Int)) := by
        intro h
        apply e
        rw [h]
        exact ⟨rfl, rfl⟩
      simp [if_neg e, e1]

theorem bump_box_apply (g : Grid) (i j : Int) (x : Fin ROWS) (y : Fin COLS) :
    bump_box g i j x y =
      { g x y with neighbor_mines :=
          (g x y).neighbor_mines + visits (box i j) (((x : Nat) : Int), ((y : Nat) : Int)) } :=
  bump_fold_apply x y (box i j) g

theorem withMine_cells (board : GameBoard) (i x : Fin ROWS) (j y : Fin COLS) :
    (withMine board i j).cells x y =
      { is_mine := if x = i ∧ y = j then 1 else (board.cells x y).is_mine
        is_revealed := (board.cells x y).is_revealed
        is_flagged := (board.cells x y).is_flagged
        neighbor_mines := (board.cells x y).neighbor_mines
          + visits (box ((i : Nat) : Int) ((j : Nat) : Int)) (((x : Nat) : Int), ((y : Nat) : Int)) } := by
  simp only [withMine, bump_box_apply, setCell]
  split_ifs with e
  · rw [e.1, e.2]
  · rfl

theorem isMineAt_fin (b : GameBoard) (x : Fin ROWS) (y : Fin COLS) :
    isMineAt b (((x : Nat) : Int), ((y : Nat) : Int)) = decide ((b.cells x y).is_mine ≠ 0) := by
  simp only [isMineAt, dif_pos (inBounds_fin x y), cellAt, rowIx_fin, colIx_fin]

theorem isMineAt_withMine (board : GameBoard) (i : Fin ROWS) (j : Fin COLS) (p : Int × Int) :
    isMineAt (withMine board i j) p
      = (isMineAt board p || decide (p = (((i : Nat) : Int), ((j : Nat) : Int)))) := by
  by_cases h : InBounds p.1 p.2
  · simp only [isMineAt, dif_pos h, cellAt, withMine_cells]
    by_cases e : rowIx p.1 p.2 h = i ∧ colIx p.1 p.2 h = j
    · have e1 : p = (((i : Nat) : Int), ((j : Nat) : Int)) := by
        apply Prod.ext
        · rw [← e.1, rowIx_val]
        · rw [← e.2, colIx_val]
      rw [if_pos e]
      simp [e1]
    · have e1 : ¬ p = (((i : Nat) : Int), ((j : Nat) : Int)) := by
        intro hp
        apply e
        constructor
        · exact ((rowIx_eq_iff p.1 p.2 h i).2 (by rw [hp])).symm
        · exact ((colIx_eq_iff p.1 p.2 h j).2 (by rw [hp])).symm
      rw [if_neg e]
      simp [e1]
  · have e1 : ¬ p = (((i : Nat) : Int), ((j : Nat) : Int)) := by
      intro hp
      apply h
      rw [hp]
      exact inBounds_fin i j
    simp [isMineAt, dif_neg h, e1]

theorem minesAmong_withMine (board : GameBoard) (i : Fin ROWS) (j : Fin COLS)
    (hm : (board.cells i j).is_mine = 0) :
    ∀ l : List (Int × Int),
      minesAmong (withMine board i j) l
        = minesAmong board l + visits l (((i : Nat) : Int), ((j : Nat) : Int)) := by
  intro l
  induction l with
  | nil => simp [minesAmong, visits]
  | cons p rest ih =>
    simp only [minesAmong, visits, List.countP_cons] at ih ⊢
    rw [ih, isMineAt_withMine]
    by_cases e : p = (((i : Nat) : Int), ((j : Nat) : Int))
    · subst e
      have hb : isMineAt board (((i : Nat) : Int), ((j : Nat) : Int)) = false := by
        rw [isMineAt_fin]
        simp [hm]
      simp [hb]
      omega
    · simp [e]
      omega

theorem mineCount_withMine (board : GameBoard) (i : Fin ROWS) (j : Fin COLS)
    (hm : (board.cells i j).is_mine = 0) :
    mineCount (withMine board i j) = mineCount board + 1 := by
  unfold mineCount
  have hset : (Finset.univ.filter fun p : Fin ROWS × Fin COLS =>
        ((withMine board i j).cells p.1 p.2).is_mine ≠ 0)
      = insert (i, j) (Finset.univ.filter fun p : Fin ROWS × Fin COLS =>
        (board.cells p.1 p.2).is_mine ≠ 0) := by
    ext p
    simp only [Finset.mem_filter, Finset.mem_univ, true_and, Finset.mem_insert, withMine_cells]
    by_cases e : p.1 = i ∧ p.2 = j
    · have : p = (i, j) := Prod.ext e.1 e.2
      simp [e, this]
    · have : ¬ p = (i, j) := fun hp => e ⟨by rw [hp], by rw [hp]⟩
      simp [e, this]
  rw [hset, Finset.card_insert_of_not_mem]
  simp [hm]

theorem Placed.withMine {board : GameBoard} (hp : Placed board) (i : Fin ROWS) (j : Fin COLS)
    (hm : (board.cells i j).is_mine = 0) : Placed (withMine board i j) := by
  intro x y
  obtain ⟨h1, h2, h3⟩ := hp x y
  rw [withMine_cells, minesAmong_withMine board i j hm, visits_box_symm]
  refine ⟨h1, h2, ?_⟩
  simp only [h3]
  push_cast
  rfl

theorem place_mines_loop_placed :
    ∀ (draws : List (Nat × Nat)) (count : Nat) (board b : GameBoard),
      Placed board → mineCount board = count → count ≤ NUM_MINES →
      place_mines_loop draws count board = some b →
      Placed b ∧ mineCount b = NUM_MINES := by
  intro draws
  induction draws with
  | nil =>
    intro count board b hp hc hle h
    rw [place_mines_loop] at h
    split_ifs at h with hlt
    cases h
    exact ⟨hp, by omega⟩
  | cons d rest ih =>
    intro count board b hp hc hle h
    rw [place_mines_loop] at h
    split_ifs at h with hlt
    · simp only at h
      split_ifs at h with hm
      · exact ih (count + 1) _ b (hp.withMine _ _ hm)
          (by rw [← hc]; exact mineCount_withMine board _ _ hm) hlt h
      · exact ih count board b hp hc hle h
    · cases h
      exact ⟨hp, by omega⟩

/-- A draw that lands on a cell that already holds a mine places nothing and
is not counted: the loop goes on with the same board and the same count. -/
theorem place_mines_loop_skip (a b : Nat) (rest : List (Nat × Nat)) (count : Nat)
    (board : GameBoard) (hlt : count < NUM_MINES)
    (hm : (board.cells ⟨a % ROWS, Nat.mod_lt _ (by decide)⟩
      ⟨b % COLS, Nat.mod_lt _ (by decide)⟩).is_mine ≠ 0) :
    place_mines_loop ((a, b) :: rest) count board = place_mines_loop rest count board := by
  rw [place_mines_loop, if_pos hlt]
  simp only
  rw [if_neg hm]

theorem init_board_placed : Placed init_board := by
  intro i j
  refine ⟨rfl, rfl, ?_⟩
  have : minesAmong init_board (box ((i : Nat) : Int) ((j : Nat) : Int)) = 0 := by
    simp only [minesAmong, List.countP_eq_zero]
    intro p _
    simp [isMineAt, cellAt, init_board]
  rw [this]
  rfl

theorem mineCount_init_board : mineCount init_board = 0 := by
  simp [mineCount, init_board]

theorem place_mines_placed (draws : List (Nat × Nat)) (b : GameBoard)
    (h : place_mines init_board draws = some b) : Placed b ∧ mineCount b = NUM_MINES :=
  place_mines_loop_placed draws 0 init_board b init_board_placed mineCount_init_board
    (Nat.zero_le _) h

theorem minesAmong_box (b : GameBoard) (i j : Int) :
    minesAmong b (box i j)
      = minesAmong b (neighbours8 i j) + (if isMineAt b (i, j) = true then 1 else 0) := by
  simp only [minesAmong, box, neighbours8, List.countP_cons, List.countP_nil]
  omega

/-! ## Claims about `place_mines` -/

/-- C3. After `init_board` and `place_mines`, on every sequence of `rand()`
results on which the placement loop finishes, exactly `NUM_MINES` cells have
`is_mine` set. -/
theorem place_mines_mine_count (draws : List (Nat × Nat)) (b : GameBoard)
    (h : place_mines init_board draws = some b) : mineCount b = NUM_MINES :=
  (place_mines_placed draws b h).2

theorem place_mines_mine_count_witness :
    place_mines init_board [(3, 4)] = some mine34 ∧ mineCount mine34 = NUM_MINES :=
  ⟨rfl, place_mines_mine_count [(3, 4)] mine34 rfl⟩

/-- C4, as the code has it. After `init_board` and `place_mines`, the
`neighbor_mines` of every cell is the number of mines among its up-to-8
in-bounds neighbours, plus one when the cell itself is a mine: the loop
around a new mine also increments the centre of the box. -/
theorem place_mines_neighbor_mines (draws : List (Nat × Nat)) (b : GameBoard)
    (h : place_mines init_board draws = some b) (i : Fin ROWS) (j : Fin COLS) :
    (b.cells i j).neighbor_mines
      = (minesAmong b (neighbours8 ((i : Nat) : Int) ((j : Nat) : Int)) : Int)
        + (if (b.cells i j).is_mine ≠ 0 then 1 else 0) := by
  rw [((place_mines_placed draws b h).1 i j).2.2, minesAmong_box, isMineAt_fin]
  push_cast
  simp only [decide_eq_true_eq]

theorem place_mines_neighbor_mines_witness :
    place_mines init_board [(3, 4)] = some mine34 ∧
    (mine34.cells 3 4).neighbor_mines
      = (minesAmong mine34 (neighbours8 ((3 : Fin ROWS) : Nat) ((4 : Fin COLS) : Nat)) : Int)
        + (if (mine34.cells 3 4).is_mine ≠ 0 then 1 else 0) :=
  ⟨rfl, place_mines_neighbor_mines [(3, 4)] mine34 rfl 3 4⟩

/-- C4 fails as stated: with the mine at `(3, 4)`, the mine cell has
`neighbor_mines = 1` although none of its eight neighbours is a mine. -/
theorem mine_cell_counts_itself :
    place_mines init_board [(3, 4)] = some mine34 ∧
    (mine34.cells 3 4).is_mine = 1 ∧
    (mine34.cells 3 4).neighbor_mines = 1 ∧
    minesAmong mine34 (neighbours8 3 4) = 0 ∧
    (mine34.cells 3 4).neighbor_mines ≠ (minesAmong mine34 (neighbours8 3 4) : Int) :=
  ⟨rfl, by decide, by decide, by decide, by decide⟩

/-! ## Flood fill -/

theorem ZeroPath.of_neighbor_mines {a b : GameBoard}
    (h : ∀ i j, (b.cells i j).neighbor_mines = (a.cells i j).neighbor_mines)
    {p q : Fin ROWS × Fin COLS} (hp : ZeroPath a p q) : ZeroPath b p q := by
  induction hp with
  | last p => exact ZeroPath.last p
  | step p q s hz ha _ ih => exact ZeroPath.step p q s (by rw [h]; exact hz) ha ih

theorem Grows.settled {a b : GameBoard} (h : Grows a b) (q : Fin ROWS × Fin COLS)
    (hs : Settled a q) : Settled b q := by
  rcases hs with hs | hs
  · exact Or.inl (h.revealed_mono q.1 q.2 hs)
  · exact Or.inr (by rw [h.is_flagged]; exact hs)

theorem box_index (row col : Int) (h : InBounds row col) (q : Int × Int) (hq : q ∈ box row col)
    (hin : InBounds q.1 q.2) :
    (rowIx q.1 q.2 hin, colIx q.1 q.2 hin) = (rowIx row col h, colIx row col h) ∨
    Adjacent (rowIx row col h, colIx row col h) (rowIx q.1 q.2 hin, colIx q.1 q.2 hin) := by
  have hb := (mem_box row col q.1 q.2).1 hq
  have r1 := rowIx_val row col h
  have c1 := colIx_val row col h
  have r2 := rowIx_val q.1 q.2 hin
  have c2 := colIx_val q.1 q.2 hin
  by_cases e : (rowIx q.1 q.2 hin, colIx q.1 q.2 hin) = (rowIx row col h, colIx row col h)
  · exact Or.inl e
  · refine Or.inr ⟨fun e1 => e e1.symm, ?_, ?_, ?_, ?_⟩ <;> simp only <;> omega

theorem adjacent_mem_box (p q : Fin ROWS × Fin COLS) (h : Adjacent p q) :
    (((q.1 : Nat) : Int), ((q.2 : Nat) : Int)) ∈ box ((p.1 : Nat) : Int) ((p.2 : Nat) : Int) := by
  rw [mem_box]
  obtain ⟨_, h1, h2, h3, h4⟩ := h
  omega

theorem markRevealed_revealed (board : GameBoard) (row col : Int) (h : InBounds row col)
    (p : Fin ROWS × Fin COLS)
    (hp : ((markRevealed board row col h).cells p.1 p.2).is_revealed ≠ 0) :
    (board.cells p.1 p.2).is_revealed ≠ 0 ∨ p = (rowIx row col h, colIx row col h) := by
  by_cases e : p.1 = rowIx row col h ∧ p.2 = colIx row col h
  · exact Or.inr (Prod.ext e.1 e.2)
  · rw [markRevealed_cells_other board row col h p.1 p.2 e] at hp
    exact Or.inl hp

/-! ### Nothing outside the region is revealed -/

theorem reveal_each_sound (f : GameBoard → Int → Int → Option GameBoard)
    (hg : ∀ b r c b1, f b r c = some b1 → Grows b b1)
    (hs : ∀ b r c b1, f b r c = some b1 → ∀ p : Fin ROWS × Fin COLS,
      (b1.cells p.1 p.2).is_revealed ≠ 0 → (b.cells p.1 p.2).is_revealed ≠ 0 ∨
        ∃ h : InBounds r c, ZeroPath b (rowIx r c h, colIx r c h) p) :
    ∀ (l : List (Int × Int)) (b b1 : GameBoard), reveal_each f l b = some b1 →
      ∀ p : Fin ROWS × Fin COLS, (b1.cells p.1 p.2).is_revealed ≠ 0 →
        (b.cells p.1 p.2).is_revealed ≠ 0 ∨
        ∃ q ∈ l, ∃ h : InBounds q.1 q.2, ZeroPath b (rowIx q.1 q.2 h, colIx q.1 q.2 h) p := by
  intro l
  induction l with
  | nil =>
    intro b b1 h p hp
    simp only [reveal_each, Option.some.injEq] at h
    subst h
    exact Or.inl hp
  | cons q0 rest ih =>
    intro b b1 h p hp
    simp only [reveal_each] at h
    cases hq : f b q0.1 q0.2 with
    | none => simp [hq] at h
    | some b2 =>
      simp only [hq] at h
      have g2 := hg b q0.1 q0.2 b2 hq
      rcases ih b2 b1 h p hp with h2 | ⟨q, hq1, hin, hpath⟩
      · rcases hs b q0.1 q0.2 b2 hq p h2 with h3 | ⟨hin, hpath⟩
        · exact Or.inl h3
        · exact Or.inr ⟨q0, List.mem_cons_self _ _, hin, hpath⟩
      · exact Or.inr ⟨q, List.mem_cons_of_mem _ hq1, hin,
          hpath.of_neighbor_mines (fun i j => (g2.neighbor_mines i j).symm)⟩

theorem reveal_cell_fuel_sound :
    ∀ (fuel : Nat) (b : GameBoard) (row col : Int) (b1 : GameBoard),
      reveal_cell_fuel fuel b row col = some b1 → ∀ p : Fin ROWS × Fin COLS,
        (b1.cells p.1 p.2).is_revealed ≠ 0 → (b.cells p.1 p.2).is_revealed ≠ 0 ∨
          ∃ h : InBounds row col, ZeroPath b (rowIx row col h, colIx row col h) p := by
  intro fuel
  induction fuel with
  | zero =>
    intro b row col b1 h
    simp [reveal_cell_fuel] at h
  | succ n ih =>
    intro b row col b1 h p hp
    rcases reveal_cell_fuel_cases n b row col with
      ⟨e, _⟩ | ⟨hin, hr, hf, _, e⟩ | ⟨hin, hr, hf, _, _, e⟩ | ⟨hin, hr, hf, _, hn, e⟩
    · rw [e] at h
      cases h
      exact Or.inl hp
    · rw [e] at h
      cases h
      rcases markRevealed_revealed b row col hin p hp with h1 | h1
      · exact Or.inl h1
      · exact Or.inr ⟨hin, h1 ▸ ZeroPath.last p⟩
    · rw [e] at h
      cases h
      rcases markRevealed_revealed b row col hin p hp with h1 | h1
      · exact Or.inl h1
      · exact Or.inr ⟨hin, h1 ▸ ZeroPath.last p⟩
    · rw [e] at h
      have gm := markRevealed_grows b row col hin hr hf
      rcases reveal_each_sound _ (reveal_cell_fuel_grows n) ih _ _ _ h p hp with
        h1 | ⟨q, hq, hqin, hpath⟩
      · rcases markRevealed_revealed b row col hin p h1 with h2 | h2
        · exact Or.inl h2
        · exact Or.inr ⟨hin, h2 ▸ ZeroPath.last p⟩
      · have hpath1 := hpath.of_neighbor_mines (fun i j => (gm.neighbor_mines i j).symm)
        refine Or.inr ⟨hin, ?_⟩
        rcases box_index row col hin q hq hqin with e1 | e1
        · rw [← e1]
          exact hpath1
        · exact ZeroPath.step _ _ _ hn e1 hpath1

/-! ### Nothing inside the region is missed -/

theorem reveal_each_closed (f : GameBoard → Int → Int → Option GameBoard)
    (hg : ∀ b r c b1, f b r c = some b1 → Grows b b1)
    (h1 : ∀ b r c b1, f b r c = some b1 → ∀ h : InBounds r c,
      Settled b1 (rowIx r c h, colIx r c h))
    (h2 : ∀ b r c b1, f b r c = some b1 → Closed b b1) :
    ∀ (l : List (Int × Int)) (b b1 : GameBoard), reveal_each f l b = some b1 →
      (∀ q ∈ l, ∀ h : InBounds q.1 q.2, Settled b1 (rowIx q.1 q.2 h, colIx q.1 q.2 h)) ∧
      Closed b b1 := by
  intro l
  induction l with
  | nil =>
    intro b b1 h
    simp only [reveal_each, Option.some.injEq] at h
    subst h
    refine ⟨fun q hq => by simp at hq, ?_⟩
    intro p hp hr
    exact absurd hr hp
  | cons q0 rest ih =>
    intro b b1 h
    simp only [reveal_each] at h
    cases hq : f b q0.1 q0.2 with
    | none => simp [hq] at h
    | some b2 =>
      simp only [hq] at h
      have g2 := hg b q0.1 q0.2 b2 hq
      have g3 := reveal_each_grows f hg rest b2 b1 h
      obtain ⟨i1, i2⟩ := ih b2 b1 h
      constructor
      · intro q hqm hin
        rcases List.mem_cons.1 hqm with e | e
        · subst e
          exact g3.settled _ (h1 b q.1 q.2 b2 hq hin)
        · exact i1 q e hin
      · intro p hp hr hz hm q hadj
        by_cases h3 : (b2.cells p.1 p.2).is_revealed = 0
        · exact i2 p hp h3 (by rw [g2.neighbor_mines]; exact hz) (by rw [g2.is_mine]; exact hm)
            q hadj
        · exact g3.settled q (h2 b q0.1 q0.2 b2 hq p h3 hr hz hm q hadj)

theorem closed_of_eq (b : GameBoard) : Closed b b := by
  intro p hp hr
  exact absurd hr hp

theorem closed_markRevealed_of (b : GameBoard) (row col : Int) (h : InBounds row col)
    (hv : (cellAt b row col h).is_mine ≠ 0 ∨ (cellAt b row col h).neighbor_mines ≠ 0)
    (b1 : GameBoard) (hc : b1.cells = (markRevealed b row col h).cells) : Closed b b1 := by
  intro p hp hr hz hm
  rw [hc] at hp
  rcases markRevealed_revealed b row col h p hp with h1 | h1
  · exact absurd hr h1
  · subst h1
    rcases hv with hv | hv
    · exact absurd hm hv
    · exact absurd hz hv

theorem reveal_cell_fuel_closed :
    ∀ (fuel : Nat) (b : GameBoard) (row col : Int) (b1 : GameBoard),
      reveal_cell_fuel fuel b row col = some b1 →
      (∀ h : InBounds row col, Settled b1 (rowIx row col h, colIx row col h)) ∧ Closed b b1 := by
  intro fuel
  induction fuel with
  | zero =>
    intro b row col b1 h
    simp [reveal_cell_fuel] at h
  | succ n ih =>
    intro b row col b1 h
    rcases reveal_cell_fuel_cases n b row col with
      ⟨e, hc⟩ | ⟨hin, hr, hf, hm, e⟩ | ⟨hin, hr, hf, hm, hn, e⟩ | ⟨hin, hr, hf, hm, hn, e⟩
    · rw [e] at h
      cases h
      refine ⟨fun hin => ?_, closed_of_eq b⟩
      rcases hc with hc | ⟨_, hc⟩
      · exact absurd hin hc
      · exact hc
    · rw [e] at h
      cases h
      refine ⟨fun _ => Or.inl ?_, closed_markRevealed_of b row col hin (Or.inl hm) _ rfl⟩
      simp [markRevealed]
    · rw [e] at h
      cases h
      refine ⟨fun _ => Or.inl ?_, closed_markRevealed_of b row col hin (Or.inr hn) _ rfl⟩
      simp [markRevealed]
    · rw [e] at h
      have gm := markRevealed_grows b row col hin hr hf
      have g3 := reveal_each_grows _ (reveal_cell_fuel_grows n) _ _ _ h
      obtain ⟨i1, i2⟩ := reveal_each_closed _ (reveal_cell_fuel_grows n)
        (fun b r c b1 hb => (ih b r c b1 hb).1) (fun b r c b1 hb => (ih b r c b1 hb).2) _ _ _ h
      have hself : Settled (markRevealed b row col hin) (rowIx row col hin, colIx row col hin) :=
        Or.inl (by simp [markRevealed])
      refine ⟨fun _ => g3.settled _ hself, ?_⟩
      intro p hp hr1 hz hm1 q hadj
      by_cases h3 : ((markRevealed b row col hin).cells p.1 p.2).is_revealed = 0
      · exact i2 p hp h3 (by rw [gm.neighbor_mines]; exact hz) (by rw [gm.is_mine]; exact hm1)
          q hadj
      · rcases markRevealed_revealed b row col hin p h3 with h4 | h4
        · exact absurd hr1 h4
        · subst h4
          have hmem := adjacent_mem_box _ q hadj
          simp only [rowIx_val, colIx_val] at hmem
          have := i1 _ hmem (inBounds_fin q.1 q.2)
          rw [rowIx_fin, colIx_fin] at this
          exact this

theorem reveal_cell_closed (b : GameBoard) (row col : Int) :
    (∀ h : InBounds row col, Settled (reveal_cell b row col) (rowIx row col h, colIx row col h)) ∧
    Closed b (reveal_cell b row col) :=
  reveal_cell_fuel_closed _ b row col _ (reveal_cell_fuel_complete b row col)

theorem reveal_cell_sound (b : GameBoard) (row col : Int) (p : Fin ROWS × Fin COLS)
    (hp : ((reveal_cell b row col).cells p.1 p.2).is_revealed ≠ 0) :
    (b.cells p.1 p.2).is_revealed ≠ 0 ∨
      ∃ h : InBounds row col, ZeroPath b (rowIx row col h, colIx row col h) p :=
  reveal_cell_fuel_sound _ b row col _ (reveal_cell_fuel_complete b row col) p hp

/-- On a board with nothing revealed, nothing flagged and a non-zero count on
every mine, `reveal_cell` reveals exactly the cells that a zero path reaches. -/
theorem reveal_cell_region (b : GameBoard)
    (hnr : ∀ i j, (b.cells i j).is_revealed = 0)
    (hnf : ∀ i j, (b.cells i j).is_flagged = 0)
    (hmn : ∀ i j, (b.cells i j).is_mine ≠ 0 → (b.cells i j).neighbor_mines ≠ 0)
    (row col : Int) (h : InBounds row col) (p : Fin ROWS × Fin COLS) :
    ((reveal_cell b row col).cells p.1 p.2).is_revealed ≠ 0 ↔
      ZeroPath b (rowIx row col h, colIx row col h) p := by
  have hg := reveal_cell_grows b row col
  obtain ⟨c1, c2⟩ := reveal_cell_closed b row col
  have unflag : ∀ q, Settled (reveal_cell b row col) q →
      ((reveal_cell b row col).cells q.1 q.2).is_revealed ≠ 0 := by
    intro q hq
    rcases hq with hq | hq
    · exact hq
    · rw [hg.is_flagged, hnf] at hq
      exact absurd rfl hq
  constructor
  · intro hp
    rcases reveal_cell_sound b row col p hp with h1 | ⟨_, h1⟩
    · exact absurd (hnr p.1 p.2) h1
    · exact h1
  · intro hpath
    have hstart := unflag _ (c1 h)
    revert hstart
    generalize (rowIx row col h, colIx row col h) = s at hpath
    induction hpath with
    | last p => exact fun hs => hs
    | step p q s hz ha _ ih =>
      intro hs
      apply ih
      have hm : (b.cells p.1 p.2).is_mine = 0 := by
        by_contra hne
        exact hmn p.1 p.2 hne hz
      exact unflag q (c2 p hs (hnr p.1 p.2) hz hm q ha)

theorem Placed.mine_count_pos {b : GameBoard} (hp : Placed b) (i : Fin ROWS) (j : Fin COLS)
    (hm : (b.cells i j).is_mine ≠ 0) : (b.cells i j).neighbor_mines ≠ 0 := by
  rw [(hp i j).2.2, minesAmong_box, isMineAt_fin, if_pos (by simpa using hm)]
  push_cast
  omega

theorem ZeroPath.of_nonzero {b : GameBoard} {p q : Fin ROWS × Fin COLS} (h : ZeroPath b p q)
    (hn : (b.cells p.1 p.2).neighbor_mines ≠ 0) : q = p := by
  cases h with
  | last => rfl
  | step _ _ _ hz _ _ => exact absurd hz hn

/-- C1. Flood fill reveals exactly the zero-region and its bordering ring.
Take the mines and neighbor counts that `place_mines` derives, on a board
with no revealed and no flagged cell, and an in-bounds cell `(row, col)`.
After `reveal_cell` a cell is revealed exactly when an 8-adjacency path leads
to it from `(row, col)` on which every cell before the last has
`neighbor_mines = 0`; when the count of `(row, col)` is non-zero that is
`(row, col)` alone. The statement does not need `(row, col)` to be free of a
mine: a mine has a non-zero count and is revealed alone. -/
theorem reveal_cell_flood_fill (draws : List (Nat × Nat)) (placed : GameBoard)
    (hp : place_mines init_board draws = some placed) (board : GameBoard)
    (hlay : ∀ i j, (board.cells i j).is_mine = (placed.cells i j).is_mine ∧
      (board.cells i j).neighbor_mines = (placed.cells i j).neighbor_mines)
    (hnr : ∀ i j, (board.cells i j).is_revealed = 0)
    (hnf : ∀ i j, (board.cells i j).is_flagged = 0)
    (row col : Int) (h : InBounds row col) :
    (∀ p : Fin ROWS × Fin COLS,
      ((reveal_cell board row col).cells p.1 p.2).is_revealed ≠ 0 ↔
        ZeroPath board (rowIx row col h, colIx row col h) p) ∧
    ((cellAt board row col h).neighbor_mines ≠ 0 → ∀ p : Fin ROWS × Fin COLS,
      (((reveal_cell board row col).cells p.1 p.2).is_revealed ≠ 0 ↔
        p = (rowIx row col h, colIx row col h))) := by
  have hmn : ∀ i j, (board.cells i j).is_mine ≠ 0 → (board.cells i j).neighbor_mines ≠ 0 := by
    intro i j hm
    rw [(hlay i j).1] at hm
    rw [(hlay i j).2]
    exact (place_mines_placed draws placed hp).1.mine_count_pos i j hm
  have key := reveal_cell_region board hnr hnf hmn row col h
  refine ⟨key, fun hn p => ?_⟩
  rw [key p]
  constructor
  · intro hpath
    exact hpath.of_nonzero hn
  · intro e
    rw [e]
    exact ZeroPath.last _

theorem reveal_cell_flood_fill_witness :
    place_mines init_board [(3, 4)] = some mine34 ∧
    (∀ i j, (mine34.cells i j).is_mine = (mine34.cells i j).is_mine ∧
      (mine34.cells i j).neighbor_mines = (mine34.cells i j).neighbor_mines) ∧
    (∀ i j, (mine34.cells i j).is_revealed = 0) ∧
    (∀ i j, (mine34.cells i j).is_flagged = 0) ∧
    InBounds 0 0 ∧
    (∀ p : Fin ROWS × Fin COLS,
      ((reveal_cell mine34 0 0).cells p.1 p.2).is_revealed ≠ 0 ↔
        ZeroPath mine34 (rowIx 0 0 inBounds_0_0, colIx 0 0 inBounds_0_0) p) ∧
    ((cellAt mine34 0 0 inBounds_0_0).neighbor_mines ≠ 0 → ∀ p : Fin ROWS × Fin COLS,
      (((reveal_cell mine34 0 0).cells p.1 p.2).is_revealed ≠ 0 ↔
        p = (rowIx 0 0 inBounds_0_0, colIx 0 0 inBounds_0_0))) :=
  ⟨rfl, fun _ _ => ⟨rfl, rfl⟩, by decide, by decide, inBounds_0_0,
    reveal_cell_flood_fill [(3, 4)] mine34 rfl mine34 (fun _ _ => ⟨rfl, rfl⟩)
      (by decide) (by decide) 0 0 inBounds_0_0⟩

/-! ## More about `toggle_flag` -/

theorem toggle_flag_oob (board : GameBoard) (row col : Int) (h : ¬ InBounds row col) :
    toggle_flag board row col = board := by
  simp only [toggle_flag, dif_neg h]

theorem toggle_flag_revealed (board : GameBoard) (row col : Int) (h : InBounds row col)
    (hr : (cellAt board row col h).is_revealed ≠ 0) :
    toggle_flag board row col = board := by
  simp only [cellAt] at hr
  simp only [toggle_flag, dif_pos h, if_neg hr]

/-- C11. Outside its guard `toggle_flag` is a no-op: when `(row, col)` is out
of the grid, or in bounds with a revealed cell, the board comes back unchanged
in every field, `is_flagged` and `flags_remaining` included. An out-of-bounds
position is not `InBounds`, so no index into the grid can be formed from it. -/
theorem toggle_flag_outside_guard (board : GameBoard) (row col : Int)
    (h : (row < 0 ∨ row ≥ ROWS ∨ col < 0 ∨ col ≥ COLS) ∨
      ∃ hin : InBounds row col, (cellAt board row col hin).is_revealed ≠ 0) :
    toggle_flag board row col = board ∧
    ((row < 0 ∨ row ≥ ROWS ∨ col < 0 ∨ col ≥ COLS) → ¬ InBounds row col) := by
  have hoob : (row < 0 ∨ row ≥ ROWS ∨ col < 0 ∨ col ≥ COLS) → ¬ InBounds row col := by
    intro ho hin
    obtain ⟨h1, h2, h3, h4⟩ := hin
    omega
  refine ⟨?_, hoob⟩
  rcases h with h | ⟨hin, hr⟩
  · exact toggle_flag_oob board row col (hoob h)
  · exact toggle_flag_revealed board row col hin hr

theorem toggle_flag_outside_guard_witness :
    (((10 : Int) < 0 ∨ (10 : Int) ≥ ROWS ∨ (0 : Int) < 0 ∨ (0 : Int) ≥ COLS) ∨
      ∃ hin : InBounds 10 0, (cellAt lost34 10 0 hin).is_revealed ≠ 0) ∧
    ((((3 : Int) < 0 ∨ (3 : Int) ≥ ROWS ∨ (4 : Int) < 0 ∨ (4 : Int) ≥ COLS) ∨
      ∃ hin : InBounds 3 4, (cellAt lost34 3 4 hin).is_revealed ≠ 0)) ∧
    (toggle_flag lost34 10 0 = lost34 ∧
      (((10 : Int) < 0 ∨ (10 : Int) ≥ ROWS ∨ (0 : Int) < 0 ∨ (0 : Int) ≥ COLS) →
        ¬ InBounds 10 0)) ∧
    (toggle_flag lost34 3 4 = lost34 ∧
      (((3 : Int) < 0 ∨ (3 : Int) ≥ ROWS ∨ (4 : Int) < 0 ∨ (4 : Int) ≥ COLS) →
        ¬ InBounds 3 4)) :=
  ⟨Or.inl (by decide), Or.inr ⟨inBounds_3_4, by decide⟩,
    toggle_flag_outside_guard lost34 10 0 (Or.inl (by decide)),
    toggle_flag_outside_guard lost34 3 4 (Or.inr ⟨inBounds_3_4, by decide⟩)⟩

/-- C16. `reveal_cell` only ever turns `is_revealed` from 0 to 1 and
`game_over` to 1: on every board and at every `(row, col)`, recursion
included, each cell keeps its `is_revealed` or goes from 0 to 1, a revealed
cell stays revealed, `game_over` stays set when it was set, and `is_mine`,
`neighbor_mines` and `is_flagged` of every cell, `mines_remaining`,
`flags_remaining` and the cursor are unchanged. -/
theorem reveal_cell_frame (board : GameBoard) (row col : Int) :
    (∀ i j, ((reveal_cell board row col).cells i j).is_revealed = (board.cells i j).is_revealed ∨
      ((board.cells i j).is_revealed = 0 ∧
        ((reveal_cell board row col).cells i j).is_revealed = 1)) ∧
    (∀ i j, (board.cells i j).is_revealed ≠ 0 →
      ((reveal_cell board row col).cells i j).is_revealed ≠ 0) ∧
    ((reveal_cell board row col).game_over = board.game_over ∨
      (reveal_cell board row col).game_over = 1) ∧
    (board.game_over ≠ 0 → (reveal_cell board row col).game_over ≠ 0) ∧
    (∀ i j, ((reveal_cell board row col).cells i j).is_mine = (board.cells i j).is_mine ∧
      ((reveal_cell board row col).cells i j).neighbor_mines = (board.cells i j).neighbor_mines ∧
      ((reveal_cell board row col).cells i j).is_flagged = (board.cells i j).is_flagged) ∧
    (reveal_cell board row col).mines_remaining = board.mines_remaining ∧
    (reveal_cell board row col).flags_remaining = board.flags_remaining ∧
    (reveal_cell board row col).cursor_position = board.cursor_position := by
  have hg := reveal_cell_grows board row col
  refine ⟨fun i j => ?_, fun i j hr => hg.revealed_mono i j hr, hg.2.2.2.1, ?_,
    fun i j => ⟨hg.is_mine i j, hg.neighbor_mines i j, hg.is_flagged i j⟩,
    hg.2.1, hg.2.2.1, hg.2.2.2.2⟩
  · rcases hg.1 i j with e | ⟨e1, _, e2⟩
    · exact Or.inl (by rw [e])
    · exact Or.inr ⟨e1, by rw [e2]⟩
  · intro hne
    rcases hg.2.2.2.1 with e | e
    · rw [e]
      exact hne
    · rw [e]
      decide

/-- C20. `reveal_cell` is idempotent: on every board and at every
`(row, col)` a second call returns the board of the first. After the first
call the position is out of bounds, or its cell is revealed or flagged, and
the second call returns at the guard. -/
theorem reveal_cell_idempotent (board : GameBoard) (row col : Int) :
    reveal_cell (reveal_cell board row col) row col = reveal_cell board row col := by
  by_cases h : InBounds row col
  · have hs := (reveal_cell_closed board row col).1 h
    exact (reveal_cell_fuel_eq _ _ row col _
      (reveal_cell_fuel_guard 0 (reveal_cell board row col) row col h hs)).symm
  · exact (reveal_cell_fuel_eq _ _ row col _
      (reveal_cell_fuel_oob 0 (reveal_cell board row col) row col h)).symm

/-! ## Cursor movement -/

theorem key_switch_up (board : GameBoard) :
    key_switch board KEY_UP = { board with cursor_position :=
      { board.cursor_position with
        row := (board.cursor_position.row - 1 + ROWS).tmod ROWS } } := by
  simp [key_switch]

theorem key_switch_down (board : GameBoard) :
    key_switch board KEY_DOWN = { board with cursor_position :=
      { board.cursor_position with
        row := (board.cursor_position.row + 1).tmod ROWS } } := by
  simp [key_switch, KEY_UP, KEY_DOWN]

theorem key_switch_left (board : GameBoard) :
    key_switch board KEY_LEFT = { board with cursor_position :=
      { board.cursor_position with
        col := (board.cursor_position.col - 1 + COLS).tmod COLS } } := by
  simp [key_switch, KEY_UP, KEY_DOWN, KEY_LEFT]

theorem key_switch_right (board : GameBoard) :
    key_switch board KEY_RIGHT = { board with cursor_position :=
      { board.cursor_position with
        col := (board.cursor_position.col + 1).tmod COLS } } := by
  simp [key_switch, KEY_UP, KEY_DOWN, KEY_LEFT, KEY_RIGHT]

/-- C13. Cursor movement wraps modulo the grid dimension and always succeeds.
For a cursor inside the grid, the up key gives row `(row - 1 + ROWS) mod ROWS`,
down gives `(row + 1) mod ROWS`, left gives column `(col - 1 + COLS) mod COLS`
and right gives `(col + 1) mod COLS`; the other coordinate is unchanged and
the new cursor is inside the grid. Up from row 0 gives row `ROWS - 1`, right
from column `COLS - 1` gives column 0. -/
theorem cursor_move_wraps (board : GameBoard)
    (h : InBounds board.cursor_position.row board.cursor_position.col) :
    (key_switch board KEY_UP).cursor_position =
      { row := (board.cursor_position.row - 1 + ROWS) % ROWS, col := board.cursor_position.col } ∧
    (key_switch board KEY_DOWN).cursor_position =
      { row := (board.cursor_position.row + 1) % ROWS, col := board.cursor_position.col } ∧
    (key_switch board KEY_LEFT).cursor_position =
      { row := board.cursor_position.row, col := (board.cursor_position.col - 1 + COLS) % COLS } ∧
    (key_switch board KEY_RIGHT).cursor_position =
      { row := board.cursor_position.row, col := (board.cursor_position.col + 1) % COLS } ∧
    InBounds (key_switch board KEY_UP).cursor_position.row
      (key_switch board KEY_UP).cursor_position.col ∧
    InBounds (key_switch board KEY_DOWN).cursor_position.row
      (key_switch board KEY_DOWN).cursor_position.col ∧
    InBounds (key_switch board KEY_LEFT).cursor_position.row
      (key_switch board KEY_LEFT).cursor_position.col ∧
    InBounds (key_switch board KEY_RIGHT).cursor_position.row
      (key_switch board KEY_RIGHT).cursor_position.col ∧
    (board.cursor_position.row = 0 →
      (key_switch board KEY_UP).cursor_position.row = ROWS - 1) ∧
    (board.cursor_position.col = COLS - 1 →
      (key_switch board KEY_RIGHT).cursor_position.col = 0) := by
  obtain ⟨h1, h2, h3, h4⟩ := h
  have eu : (board.cursor_position.row - 1 + ROWS).tmod ROWS
      = (board.cursor_position.row - 1 + ROWS) % ROWS :=
    Int.tmod_eq_emod (by omega) (by omega)
  have ed : (board.cursor_position.row + 1).tmod ROWS = (board.cursor_position.row + 1) % ROWS :=
    Int.tmod_eq_emod (by omega) (by omega)
  have el : (board.cursor_position.col - 1 + COLS).tmod COLS
      = (board.cursor_position.col - 1 + COLS) % COLS :=
    Int.tmod_eq_emod (by omega) (by omega)
  have er : (board.cursor_position.col + 1).tmod COLS = (board.cursor_position.col + 1) % COLS :=
    Int.tmod_eq_emod (by omega) (by omega)
  rw [key_switch_up, key_switch_down, key_switch_left, key_switch_right]
  simp only [eu, ed, el, er, InBounds]
  have hR : ((ROWS : Nat) : Int) = 10 := rfl
  rw [hR] at h2 h4 ⊢
  refine ⟨trivial, trivial, trivial, trivial, ⟨?_, ?_, h3, h4⟩, ⟨?_, ?_, h3, h4⟩,
    ⟨h1, h2, ?_, ?_⟩, ⟨h1, h2, ?_, ?_⟩, ?_, ?_⟩ <;> omega

theorem cursor_move_wraps_witness :
    InBounds ({ mine34 with cursor_position := { row := 0, col := 9 } } : GameBoard).cursor_position.row
      ({ mine34 with cursor_position := { row := 0, col := 9 } } : GameBoard).cursor_position.col ∧
    (key_switch { mine34 with cursor_position := { row := 0, col := 9 } } KEY_UP).cursor_position
      = { row := 9, col := 9 } ∧
    (key_switch { mine34 with cursor_position := { row := 0, col := 9 } } KEY_RIGHT).cursor_position
      = { row := 0, col := 0 } ∧
    (key_switch { mine34 with cursor_position := { row := 0, col := 9 } } KEY_DOWN).cursor_position
      = { row := 1, col := 9 } ∧
    (key_switch { mine34 with cursor_position := { row := 0, col := 9 } } KEY_LEFT).cursor_position
      = { row := 0, col := 8 } :=
  have h := cursor_move_wraps { mine34 with cursor_position := { row := 0, col := 9 } }
    (by decide)
  ⟨by decide, h.1, h.2.2.2.1, h.2.1, h.2.2.1⟩

/-! ## The box count of `place_mines` -/

/-- C17. After `init_board` and `place_mines`, the `neighbor_mines` of every
cell is the number of mines in the 3x3 box centred on the cell and clipped to
the grid, the cell itself included. So a mine cell has `neighbor_mines >= 1`,
and on a cell without a mine the value is the number of adjacent mines. -/
theorem place_mines_box_count (draws : List (Nat × Nat)) (b : GameBoard)
    (h : place_mines init_board draws = some b) (i : Fin ROWS) (j : Fin COLS) :
    (b.cells i j).neighbor_mines
      = (minesAmong b (box ((i : Nat) : Int) ((j : Nat) : Int)) : Int) ∧
    ((b.cells i j).is_mine ≠ 0 → 1 ≤ (b.cells i j).neighbor_mines) ∧
    ((b.cells i j).is_mine = 0 → (b.cells i j).neighbor_mines
      = (minesAmong b (neighbours8 ((i : Nat) : Int) ((j : Nat) : Int)) : Int)) := by
  have hp := (place_mines_placed draws b h).1
  have hn : (b.cells i j).neighbor_mines
      = (minesAmong b (neighbours8 ((i : Nat) : Int) ((j : Nat) : Int)) : Int)
        + (if (b.cells i j).is_mine ≠ 0 then 1 else 0) := by
    rw [(hp i j).2.2, minesAmong_box, isMineAt_fin]
    push_cast
    simp only [decide_eq_true_eq]
  refine ⟨(hp i j).2.2, fun hm => ?_, fun hm => ?_⟩
  · rw [hn, if_pos hm]
    omega
  · rw [hn, if_neg (by simpa using hm)]
    omega

theorem place_mines_box_count_witness :
    place_mines init_board [(3, 4)] = some mine34 ∧
    (mine34.cells 3 4).neighbor_mines
      = (minesAmong mine34 (box ((3 : Fin ROWS) : Nat) ((4 : Fin COLS) : Nat)) : Int) ∧
    ((mine34.cells 3 4).is_mine ≠ 0 → 1 ≤ (mine34.cells 3 4).neighbor_mines) ∧
    ((mine34.cells 3 4).is_mine = 0 → (mine34.cells 3 4).neighbor_mines
      = (minesAmong mine34 (neighbours8 ((3 : Fin ROWS) : Nat) ((4 : Fin COLS) : Nat)) : Int)) :=
  ⟨rfl, place_mines_box_count [(3, 4)] mine34 rfl 3 4⟩

/-! ## Flood fill and mines -/

theorem ZeroPath.append {b : GameBoard} {p q s : Fin ROWS × Fin COLS}
    (h1 : ZeroPath b p q) (h2 : ZeroPath b q s) : ZeroPath b p s := by
  induction h1 with
  | last p => exact h2
  | step p q t hz ha _ ih => exact ZeroPath.step p q s hz ha (ih h2)

theorem ZeroPath.last_step {b : GameBoard} {s p : Fin ROWS × Fin COLS} (h : ZeroPath b s p)
    (hne : s ≠ p) : ∃ q, (b.cells q.1 q.2).neighbor_mines = 0 ∧ Adjacent q p := by
  induction h with
  | last p => exact absurd rfl hne
  | step p q t hz ha _ ih =>
    by_cases e : q = t
    · subst e
      exact ⟨p, hz, ha⟩
    · exact ih e

theorem reveal_each_game_over (f : GameBoard → Int → Int → Option GameBoard)
    (hg : ∀ b r c b1, f b r c = some b1 → Grows b b1)
    (hs : ∀ b r c b1, f b r c = some b1 → b1.game_over = b.game_over ∨
      ∃ p : Fin ROWS × Fin COLS, (b.cells p.1 p.2).is_mine ≠ 0 ∧
        (b.cells p.1 p.2).is_revealed = 0 ∧ (b1.cells p.1 p.2).is_revealed ≠ 0) :
    ∀ (l : List (Int × Int)) (b b1 : GameBoard), reveal_each f l b = some b1 →
      b1.game_over = b.game_over ∨
      ∃ p : Fin ROWS × Fin COLS, (b.cells p.1 p.2).is_mine ≠ 0 ∧
        (b.cells p.1 p.2).is_revealed = 0 ∧ (b1.cells p.1 p.2).is_revealed ≠ 0 := by
  intro l
  induction l with
  | nil =>
    intro b b1 h
    simp only [reveal_each, Option.some.injEq] at h
    subst h
    exact Or.inl rfl
  | cons q0 rest ih =>
    intro b b1 h
    simp only [reveal_each] at h
    cases hq : f b q0.1 q0.2 with
    | none => simp [hq] at h
    | some b2 =>
      simp only [hq] at h
      have g2 := hg b q0.1 q0.2 b2 hq
      have g3 := reveal_each_grows f hg rest b2 b1 h
      rcases hs b q0.1 q0.2 b2 hq with e2 | ⟨p, hm, hr, hr2⟩
      · rcases ih b2 b1 h with e3 | ⟨p, hm, hr, hr1⟩
        · exact Or.inl (e3.trans e2)
        · refine Or.inr ⟨p, by rw [← g2.is_mine]; exact hm, ?_, hr1⟩
          by_contra hne
          exact g2.revealed_mono p.1 p.2 hne hr
      · exact Or.inr ⟨p, hm, hr, g3.revealed_mono p.1 p.2 hr2⟩

theorem reveal_cell_fuel_game_over :
    ∀ (fuel : Nat) (b : GameBoard) (row col : Int) (b1 : GameBoard),
      reveal_cell_fuel fuel b row col = some b1 →
      b1.game_over = b.game_over ∨
      ∃ p : Fin ROWS × Fin COLS, (b.cells p.1 p.2).is_mine ≠ 0 ∧
        (b.cells p.1 p.2).is_revealed = 0 ∧ (b1.cells p.1 p.2).is_revealed ≠ 0 := by
  intro fuel
  induction fuel with
  | zero =>
    intro b row col b1 h
    simp [reveal_cell_fuel] at h
  | succ n ih =>
    intro b row col b1 h
    rcases reveal_cell_fuel_cases n b row col with
      ⟨e, _⟩ | ⟨hin, hr, hf, hm, e⟩ | ⟨hin, hr, hf, _, _, e⟩ | ⟨hin, hr, hf, _, _, e⟩
    · rw [e] at h
      cases h
      exact Or.inl rfl
    · rw [e] at h
      cases h
      exact Or.inr ⟨(rowIx row col hin, colIx row col hin), hm, hr, by simp [markRevealed]⟩
    · rw [e] at h
      cases h
      exact Or.inl rfl
    · rw [e] at h
      have gm := markRevealed_grows b row col hin hr hf
      rcases reveal_each_game_over _ (reveal_cell_fuel_grows n) ih _ _ _ h with
        e1 | ⟨p, hm, hr1, hr2⟩
      · exact Or.inl e1
      · refine Or.inr ⟨p, by rw [← gm.is_mine]; exact hm, ?_, hr2⟩
        by_contra hne
        exact gm.revealed_mono p.1 p.2 hne hr1

theorem reveal_cell_game_over (b : GameBoard) (row col : Int) :
    (reveal_cell b row col).game_over = b.game_over ∨
    ∃ p : Fin ROWS × Fin COLS, (b.cells p.1 p.2).is_mine ≠ 0 ∧
      (b.cells p.1 p.2).is_revealed = 0 ∧
      ((reveal_cell b row col).cells p.1 p.2).is_revealed ≠ 0 :=
  reveal_cell_fuel_game_over _ b row col _ (reveal_cell_fuel_complete b row col)

/-- A mine that `reveal_cell` uncovers is the cell of the call itself, when
every cell next to a mine has a non-zero count. -/
theorem reveal_cell_mine_is_start (b : GameBoard)
    (hcons : ∀ p q : Fin ROWS × Fin COLS, Adjacent p q → (b.cells q.1 q.2).is_mine ≠ 0 →
      (b.cells p.1 p.2).neighbor_mines ≠ 0)
    (row col : Int) (p : Fin ROWS × Fin COLS) (hm : (b.cells p.1 p.2).is_mine ≠ 0)
    (hr : (b.cells p.1 p.2).is_revealed = 0)
    (hr1 : ((reveal_cell b row col).cells p.1 p.2).is_revealed ≠ 0) :
    ∃ h : InBounds row col, p = (rowIx row col h, colIx row col h) := by
  rcases reveal_cell_sound b row col p hr1 with h1 | ⟨hin, hpath⟩
  · exact absurd hr h1
  · refine ⟨hin, ?_⟩
    by_contra hne
    obtain ⟨q, hz, ha⟩ := hpath.last_step (fun e => hne e.symm)
    exact hcons q p ha hm hz

theorem Placed.consistent {b : GameBoard} (hp : Placed b) (p q : Fin ROWS × Fin COLS)
    (ha : Adjacent p q) (hm : (b.cells q.1 q.2).is_mine ≠ 0) :
    (b.cells p.1 p.2).neighbor_mines ≠ 0 := by
  rw [(hp p.1 p.2).2.2]
  have hmem := adjacent_mem_box p q ha
  have hq : isMineAt b (((q.1 : Nat) : Int), ((q.2 : Nat) : Int)) = true := by
    rw [isMineAt_fin]
    simpa using hm
  have hpos : 0 < minesAmong b (box ((p.1 : Nat) : Int) ((p.2 : Nat) : Int)) :=
    List.countP_pos_iff.2 ⟨_, hmem, hq⟩
  omega

/-- C18. Flood fill never uncovers a mine. On a board where every cell next
to a mine has a non-zero `neighbor_mines`, a call of `reveal_cell` at a
position that does not hold a mine leaves every mine cell as it was and
leaves `game_over` unchanged; and whenever a call changes `game_over`, the
position of the call is in bounds and holds a mine that was neither revealed
nor flagged. -/
theorem reveal_cell_no_mine (board : GameBoard)
    (hcons : ∀ p q : Fin ROWS × Fin COLS, Adjacent p q → (board.cells q.1 q.2).is_mine ≠ 0 →
      (board.cells p.1 p.2).neighbor_mines ≠ 0)
    (row col : Int) :
    ((∀ h : InBounds row col, (cellAt board row col h).is_mine = 0) →
      (∀ i j, (board.cells i j).is_mine ≠ 0 →
        (reveal_cell board row col).cells i j = board.cells i j) ∧
      (reveal_cell board row col).game_over = board.game_over) ∧
    ((reveal_cell board row col).game_over ≠ board.game_over →
      ∃ h : InBounds row col, (cellAt board row col h).is_mine ≠ 0 ∧
        (cellAt board row col h).is_revealed = 0 ∧ (cellAt board row col h).is_flagged = 0) := by
  have hg := reveal_cell_grows board row col
  have key : ∀ p : Fin ROWS × Fin COLS, (board.cells p.1 p.2).is_mine ≠ 0 →
      (board.cells p.1 p.2).is_revealed = 0 →
      ((reveal_cell board row col).cells p.1 p.2).is_revealed ≠ 0 →
      ∃ h : InBounds row col, (cellAt board row col h).is_mine ≠ 0 ∧
        (cellAt board row col h).is_revealed = 0 ∧ (cellAt board row col h).is_flagged = 0 := by
    intro p hm hr hr1
    obtain ⟨hin, e⟩ := reveal_cell_mine_is_start board hcons row col p hm hr hr1
    subst e
    refine ⟨hin, hm, hr, ?_⟩
    rcases hg.1 (rowIx row col hin) (colIx row col hin) with e1 | ⟨_, e2, _⟩
    · rw [e1] at hr1
      exact absurd hr hr1
    · exact e2
  constructor
  · intro hsafe
    constructor
    · intro i j hm
      rcases hg.1 i j with e | ⟨e1, _, e2⟩
      · exact e
      · obtain ⟨hin, hm1, _, _⟩ := key (i, j) hm e1 (by rw [e2]; exact one_ne_zero)
        exact absurd (hsafe hin) hm1
    · rcases reveal_cell_game_over board row col with e | ⟨p, hm, hr, hr1⟩
      · exact e
      · obtain ⟨hin, hm1, _, _⟩ := key p hm hr hr1
        exact absurd (hsafe hin) hm1
  · intro hne
    rcases reveal_cell_game_over board row col with e | ⟨p, hm, hr, hr1⟩
    · exact absurd e hne
    · exact key p hm hr hr1

theorem reveal_cell_no_mine_witness :
    (∀ p q : Fin ROWS × Fin COLS, Adjacent p q → (mine34.cells q.1 q.2).is_mine ≠ 0 →
      (mine34.cells p.1 p.2).neighbor_mines ≠ 0) ∧
    (∀ h : InBounds 0 0, (cellAt mine34 0 0 h).is_mine = 0) ∧
    ((∀ h : InBounds 0 0, (cellAt mine34 0 0 h).is_mine = 0) →
      (∀ i j, (mine34.cells i j).is_mine ≠ 0 →
        (reveal_cell mine34 0 0).cells i j = mine34.cells i j) ∧
      (reveal_cell mine34 0 0).game_over = mine34.game_over) ∧
    ((reveal_cell mine34 0 0).game_over ≠ mine34.game_over →
      ∃ h : InBounds 0 0, (cellAt mine34 0 0 h).is_mine ≠ 0 ∧
        (cellAt mine34 0 0 h).is_revealed = 0 ∧ (cellAt mine34 0 0 h).is_flagged = 0) :=
  ⟨(place_mines_placed [(3, 4)] mine34 rfl).1.consistent,
    fun _ => (by decide : (cellAt mine34 0 0 inBounds_0_0).is_mine = 0),
    reveal_cell_no_mine mine34 (place_mines_placed [(3, 4)] mine34 rfl).1.consistent 0 0⟩

/-! ## A board without mines -/

theorem zeroPath_of_all_zero (b : GameBoard) (hz : ∀ i j, (b.cells i j).neighbor_mines = 0) :
    ∀ (n : Nat) (p q : Fin ROWS × Fin COLS),
      ((p.1 : Nat) - q.1) + ((q.1 : Nat) - p.1) + ((p.2 : Nat) - q.2) + ((q.2 : Nat) - p.2) ≤ n →
      ZeroPath b p q := by
  intro n
  induction n with
  | zero =>
    intro p q h
    have e : p = q := by
      apply Prod.ext <;> apply Fin.ext <;> omega
    rw [e]
    exact ZeroPath.last q
  | succ n ih =>
    intro p q h
    obtain ⟨⟨pr, hpr⟩, ⟨pc, hpc⟩⟩ := p
    obtain ⟨⟨qr, hqr⟩, ⟨qc, hqc⟩⟩ := q
    simp only at h
    by_cases h1 : pr < qr
    · refine ZeroPath.step _ (⟨pr + 1, by omega⟩, ⟨pc, hpc⟩) _ (hz _ _) ?_ (ih _ _ ?_)
      · refine ⟨?_, ?_, ?_, ?_, ?_⟩ <;> simp <;> omega
      · simp only
        omega
    · by_cases h2 : qr < pr
      · refine ZeroPath.step _ (⟨pr - 1, by omega⟩, ⟨pc, hpc⟩) _ (hz _ _) ?_ (ih _ _ ?_)
        · refine ⟨?_, ?_, ?_, ?_, ?_⟩ <;> simp <;> omega
        · simp only
          omega
      · by_cases h3 : pc < qc
        · refine ZeroPath.step _ (⟨pr, hpr⟩, ⟨pc + 1, by omega⟩) _ (hz _ _) ?_ (ih _ _ ?_)
          · refine ⟨?_, ?_, ?_, ?_, ?_⟩ <;> simp <;> omega
          · simp only
            omega
        · by_cases h4 : qc < pc
          · refine ZeroPath.step _ (⟨pr, hpr⟩, ⟨pc - 1, by omega⟩) _ (hz _ _) ?_ (ih _ _ ?_)
            · refine ⟨?_, ?_, ?_, ?_, ?_⟩ <;> simp <;> omega
            · simp only
              omega
          · have e1 : pr = qr := by omega
            have e2 : pc = qc := by omega
            subst e1 e2
            exact ZeroPath.last _

/-- C14. On the board left by `init_board`, with no mine placed, one call of
`reveal_cell` at any in-bounds cell floods the whole board: afterwards every
cell has `is_revealed = 1`, every `neighbor_mines` is still 0 and `game_over`
is still 0. -/
theorem reveal_cell_floods_empty_board (row col : Int) (h : InBounds row col) :
    (∀ i j, ((reveal_cell init_board row col).cells i j).is_revealed = 1) ∧
    (∀ i j, ((reveal_cell init_board row col).cells i j).neighbor_mines = 0) ∧
    (reveal_cell init_board row col).game_over = 0 := by
  have hg := reveal_cell_grows init_board row col
  have hrev : ∀ i j, ((reveal_cell init_board row col).cells i j).is_revealed ≠ 0 := by
    intro i j
    have key := reveal_cell_region init_board (fun _ _ => rfl) (fun _ _ => rfl)
      (fun _ _ hm => absurd rfl hm) row col h (i, j)
    exact key.2 (zeroPath_of_all_zero init_board (fun _ _ => rfl) _ _ _ (le_refl _))
  refine ⟨fun i j => ?_, fun i j => ?_, ?_⟩
  · rcases hg.1 i j with e | ⟨_, _, e⟩
    · have := hrev i j
      rw [e] at this
      exact absurd rfl this
    · rw [e]
  · rw [hg.neighbor_mines]
    rfl
  · rcases reveal_cell_game_over init_board row col with e | ⟨p, hm, _, _⟩
    · rw [e]
      rfl
    · exact absurd rfl hm

theorem reveal_cell_floods_empty_board_witness :
    InBounds 3 4 ∧
    (∀ i j, ((reveal_cell init_board 3 4).cells i j).is_revealed = 1) ∧
    (∀ i j, ((reveal_cell init_board 3 4).cells i j).neighbor_mines = 0) ∧
    (reveal_cell init_board 3 4).game_over = 0 :=
  ⟨inBounds_3_4, reveal_cell_floods_empty_board 3 4 inBounds_3_4⟩

/-! ## Invariants of reachable boards -/

theorem place_mines_loop_fields :
    ∀ (draws : List (Nat × Nat)) (count : Nat) (board b : GameBoard),
      place_mines_loop draws count board = some b →
      b.mines_remaining = board.mines_remaining ∧ b.flags_remaining = board.flags_remaining ∧
      b.game_over = board.game_over ∧ b.cursor_position = board.cursor_position := by
  intro draws
  induction draws with
  | nil =>
    intro count board b h
    rw [place_mines_loop] at h
    split_ifs at h with hlt
    cases h
    exact ⟨rfl, rfl, rfl, rfl⟩
  | cons d rest ih =>
    intro count board b h
    rw [place_mines_loop] at h
    split_ifs at h with hlt
    · simp only at h
      split_ifs at h with hm
      · have r := ih _ _ b h
        exact r
      · exact ih _ _ b h
    · cases h
      exact ⟨rfl, rfl, rfl, rfl⟩

/-- What a key press does to the board: a cursor move or nothing, a
`reveal_cell`, or a `toggle_flag`. -/
theorem key_switch_cases (board : GameBoard) (ch : Int) :
    (∃ pos, key_switch board ch = { board with cursor_position := pos }) ∨
    (∃ row col, key_switch board ch = reveal_cell board row col) ∨
    (∃ row col, key_switch board ch = toggle_flag board row col) := by
  unfold key_switch
  split_ifs
  · exact Or.inl ⟨_, rfl⟩
  · exact Or.inl ⟨_, rfl⟩
  · exact Or.inl ⟨_, rfl⟩
  · exact Or.inl ⟨_, rfl⟩
  · exact Or.inr (Or.inl ⟨_, _, rfl⟩)
  · exact Or.inr (Or.inr ⟨_, _, rfl⟩)
  · exact Or.inl ⟨board.cursor_position, rfl⟩

theorem toggle_flag_cases (board : GameBoard) (row col : Int) :
    toggle_flag board row col = board ∨
    (∃ h : InBounds row col, (cellAt board row col h).is_revealed = 0 ∧
      (cellAt board row col h).is_flagged = 0 ∧
      toggle_flag board row col =
        { board with
          cells := setCell board.cells (rowIx row col h) (colIx row col h)
            { cellAt board row col h with is_flagged := 1 }
          flags_remaining := int_dec board.flags_remaining }) ∨
    (∃ h : InBounds row col, (cellAt board row col h).is_revealed = 0 ∧
      (cellAt board row col h).is_flagged ≠ 0 ∧
      toggle_flag board row col =
        { board with
          cells := setCell board.cells (rowIx row col h) (colIx row col h)
            { cellAt board row col h with is_flagged := 0 }
          flags_remaining := int_inc board.flags_remaining }) := by
  by_cases h : InBounds row col
  · by_cases hr : (cellAt board row col h).is_revealed = 0
    · by_cases hf : (cellAt board row col h).is_flagged = 0
      · exact Or.inr (Or.inl ⟨h, hr, hf, toggle_flag_set board row col h hr hf⟩)
      · exact Or.inr (Or.inr ⟨h, hr, hf, toggle_flag_clear board row col h hr hf⟩)
    · exact Or.inl (toggle_flag_revealed board row col h hr)
  · exact Or.inl (toggle_flag_oob board row col h)

theorem NoRevealedFlag.reveal_cell {b : GameBoard} (h : NoRevealedFlag b) (row col : Int) :
    NoRevealedFlag (reveal_cell b row col) := by
  intro i j hc
  rcases (reveal_cell_grows b row col).1 i j with e | ⟨_, e2, e3⟩
  · rw [e] at hc
    exact h i j hc
  · rw [e3] at hc
    exact hc.2 e2

theorem NoRevealedFlag.toggle_flag {b : GameBoard} (h : NoRevealedFlag b) (row col : Int) :
    NoRevealedFlag (toggle_flag b row col) := by
  rcases toggle_flag_cases b row col with e | ⟨hin, hr, _, e⟩ | ⟨hin, hr, _, e⟩
  · rw [e]
    exact h
  · rw [e]
    intro i j hc
    by_cases hij : i = rowIx row col hin ∧ j = colIx row col hin
    · rw [hij.1, hij.2] at hc
      simp only [setCell_same] at hc
      exact hc.1 hr
    · simp only [setCell_other _ _ _ _ _ _ hij] at hc
      exact h i j hc
  · rw [e]
    intro i j hc
    by_cases hij : i = rowIx row col hin ∧ j = colIx row col hin
    · rw [hij.1, hij.2] at hc
      simp only [setCell_same] at hc
      exact hc.1 hr
    · simp only [setCell_other _ _ _ _ _ _ hij] at hc
      exact h i j hc

theorem NoRevealedFlag.key_switch {b : GameBoard} (h : NoRevealedFlag b) (ch : Int) :
    NoRevealedFlag (key_switch b ch) := by
  rcases key_switch_cases b ch with ⟨pos, e⟩ | ⟨row, col, e⟩ | ⟨row, col, e⟩
  · rw [e]
    exact h
  · rw [e]
    exact h.reveal_cell row col
  · rw [e]
    exact h.toggle_flag row col

theorem Reachable.noRevealedFlag {b : GameBoard} (h : Reachable b) : NoRevealedFlag b := by
  induction h with
  | start draws b hp =>
    intro i j hc
    exact hc.1 ((place_mines_placed draws b hp).1 i j).1
  | reveal b row col _ ih => exact ih.reveal_cell row col
  | flag b row col _ ih => exact ih.toggle_flag row col
  | key b ch _ ih => exact ih.key_switch ch

theorem toggle_flag_changes_unrevealed (b : GameBoard) (row col : Int) (i : Fin ROWS)
    (j : Fin COLS)
    (hne : ((toggle_flag b row col).cells i j).is_flagged ≠ (b.cells i j).is_flagged) :
    (b.cells i j).is_revealed = 0 ∧ ((toggle_flag b row col).cells i j).is_revealed = 0 := by
  rcases toggle_flag_cases b row col with e | ⟨hin, hr, _, e⟩ | ⟨hin, hr, _, e⟩
  · rw [e] at hne
    exact absurd rfl hne
  · rw [e] at hne ⊢
    by_cases hij : i = rowIx row col hin ∧ j = colIx row col hin
    · rw [hij.1, hij.2]
      simp only [setCell_same]
      exact ⟨hr, hr⟩
    · simp only [setCell_other _ _ _ _ _ _ hij] at hne
      exact absurd rfl hne
  · rw [e] at hne ⊢
    by_cases hij : i = rowIx row col hin ∧ j = colIx row col hin
    · rw [hij.1, hij.2]
      simp only [setCell_same]
      exact ⟨hr, hr⟩
    · simp only [setCell_other _ _ _ _ _ _ hij] at hne
      exact absurd rfl hne

/-- C12. No reachable board has a cell that is both revealed and flagged.
The predicate holds after `init_board` and `place_mines` and on every board
reached from there; it still holds after `reveal_cell` (flood fill included)
and after `toggle_flag` at every position; `reveal_cell` never changes an
`is_flagged`, and `toggle_flag` changes `is_flagged` only on a cell whose
`is_revealed` is 0 before and after. -/
theorem no_cell_revealed_and_flagged (b : GameBoard) (h : Reachable b) :
    (∀ i j, ¬ ((b.cells i j).is_revealed ≠ 0 ∧ (b.cells i j).is_flagged ≠ 0)) ∧
    (∀ (row col : Int) i j, ¬ (((reveal_cell b row col).cells i j).is_revealed ≠ 0 ∧
      ((reveal_cell b row col).cells i j).is_flagged ≠ 0)) ∧
    (∀ (row col : Int) i j, ¬ (((toggle_flag b row col).cells i j).is_revealed ≠ 0 ∧
      ((toggle_flag b row col).cells i j).is_flagged ≠ 0)) ∧
    (∀ (row col : Int) i j,
      ((reveal_cell b row col).cells i j).is_flagged = (b.cells i j).is_flagged) ∧
    (∀ (row col : Int) i j,
      ((toggle_flag b row col).cells i j).is_flagged ≠ (b.cells i j).is_flagged →
      (b.cells i j).is_revealed = 0 ∧ ((toggle_flag b row col).cells i j).is_revealed = 0) :=
  ⟨h.noRevealedFlag, fun row col => h.noRevealedFlag.reveal_cell row col,
    fun row col => h.noRevealedFlag.toggle_flag row col,
    fun row col i j => (reveal_cell_grows b row col).is_flagged i j,
    fun row col i j => toggle_flag_changes_unrevealed b row col i j⟩

theorem reachable_played34 : Reachable played34 :=
  Reachable.flag _ 3 4 (Reachable.reveal _ 0 0 (Reachable.start [(3, 4)] mine34 rfl))

theorem no_cell_revealed_and_flagged_witness :
    Reachable played34 ∧
    (∀ i j, ¬ ((played34.cells i j).is_revealed ≠ 0 ∧ (played34.cells i j).is_flagged ≠ 0)) ∧
    (∀ (row col : Int) i j, ¬ (((reveal_cell played34 row col).cells i j).is_revealed ≠ 0 ∧
      ((reveal_cell played34 row col).cells i j).is_flagged ≠ 0)) ∧
    (∀ (row col : Int) i j, ¬ (((toggle_flag played34 row col).cells i j).is_revealed ≠ 0 ∧
      ((toggle_flag played34 row col).cells i j).is_flagged ≠ 0)) ∧
    (∀ (row col : Int) i j,
      ((reveal_cell played34 row col).cells i j).is_flagged = (played34.cells i j).is_flagged) ∧
    (∀ (row col : Int) i j,
      ((toggle_flag played34 row col).cells i j).is_flagged ≠ (played34.cells i j).is_flagged →
      (played34.cells i j).is_revealed = 0 ∧
        ((toggle_flag played34 row col).cells i j).is_revealed = 0) :=
  ⟨reachable_played34, no_cell_revealed_and_flagged played34 reachable_played34⟩

/-! ## Flag accounting -/

theorem flaggedCount_congr {a b : GameBoard}
    (h : ∀ i j, (b.cells i j).is_flagged = (a.cells i j).is_flagged) :
    flaggedCount b = flaggedCount a := by
  unfold flaggedCount
  congr 1
  ext p
  simp only [Finset.mem_filter, Finset.mem_univ, true_and, h]

theorem flaggedCount_set (b : GameBoard) (i : Fin ROWS) (j : Fin COLS) (v : Cell)
    (hold : (b.cells i j).is_flagged = 0) (hnew : v.is_flagged ≠ 0) :
    flaggedCount { b with cells := setCell b.cells i j v } = flaggedCount b + 1 := by
  unfold flaggedCount
  have hset : (Finset.univ.filter fun p : Fin ROWS × Fin COLS =>
        ((setCell b.cells i j v) p.1 p.2).is_flagged ≠ 0)
      = insert (i, j) (Finset.univ.filter fun p : Fin ROWS × Fin COLS =>
        (b.cells p.1 p.2).is_flagged ≠ 0) := by
    ext p
    simp only [Finset.mem_filter, Finset.mem_univ, true_and, Finset.mem_insert]
    by_cases e : p.1 = i ∧ p.2 = j
    · have hp : p = (i, j) := Prod.ext e.1 e.2
      subst hp
      simp [hnew]
    · have hp : ¬ p = (i, j) := fun hp => e ⟨by rw [hp], by rw [hp]⟩
      simp [setCell_other _ _ _ _ _ _ e, hp]
  simp only [hset]
  rw [Finset.card_insert_of_not_mem]
  simp [hold]

theorem flaggedCount_clear (b : GameBoard) (i : Fin ROWS) (j : Fin COLS) (v : Cell)
    (hold : (b.cells i j).is_flagged ≠ 0) (hnew : v.is_flagged = 0) :
    flaggedCount { b with cells := setCell b.cells i j v } + 1 = flaggedCount b := by
  unfold flaggedCount
  have hset : (Finset.univ.filter fun p : Fin ROWS × Fin COLS =>
        ((setCell b.cells i j v) p.1 p.2).is_flagged ≠ 0)
      = (Finset.univ.filter fun p : Fin ROWS × Fin COLS =>
        (b.cells p.1 p.2).is_flagged ≠ 0).erase (i, j) := by
    ext p
    simp only [Finset.mem_filter, Finset.mem_univ, true_and, Finset.mem_erase]
    by_cases e : p.1 = i ∧ p.2 = j
    · have hp : p = (i, j) := Prod.ext e.1 e.2
      subst hp
      simp [hnew]
    · have hp : ¬ p = (i, j) := fun hp => e ⟨by rw [hp], by rw [hp]⟩
      simp [setCell_other _ _ _ _ _ _ e, hp]
  simp only [hset]
  exact Finset.card_erase_add_one (by simp [hold])

theorem flaggedCount_le (b : GameBoard) : flaggedCount b ≤ ROWS * COLS := by
  unfold flaggedCount
  calc (Finset.univ.filter fun p : Fin ROWS × Fin COLS => (b.cells p.1 p.2).is_flagged ≠ 0).card
      ≤ (Finset.univ : Finset (Fin ROWS × Fin COLS)).card := Finset.card_filter_le _ _
    _ = ROWS * COLS := by simp

/-- A `toggle_flag` keeps the sum of `flags_remaining` and the number of
flagged cells at `NUM_MINES`: the counter is then within 100 of `NUM_MINES`,
far from the ends of the `int` range, so it moves by exactly one. -/
theorem flag_sum_toggle_flag (b : GameBoard) (row col : Int)
    (hinv : b.flags_remaining + (flaggedCount b : Int) = NUM_MINES) :
    (toggle_flag b row col).flags_remaining + (flaggedCount (toggle_flag b row col) : Int)
      = NUM_MINES := by
  have hle := flaggedCount_le b
  have hN : ((NUM_MINES : Nat) : Int) = 1 := rfl
  have hRC : ROWS * COLS = 100 := rfl
  rw [hN] at hinv ⊢
  rw [hRC] at hle
  rcases toggle_flag_cases b row col with e | ⟨hin, _, hf, e⟩ | ⟨hin, _, hf, e⟩
  · rw [e]
    exact hinv
  · have hcnt : flaggedCount (toggle_flag b row col) = flaggedCount b + 1 := by
      rw [e]
      exact flaggedCount_set b (rowIx row col hin) (colIx row col hin)
        { cellAt b row col hin with is_flagged := 1 } hf (by simp)
    have hfl : (toggle_flag b row col).flags_remaining = b.flags_remaining - 1 := by
      rw [e]
      exact int_dec_eq _ (by unfold INT_MIN; omega) (by unfold INT_MAX; omega)
    rw [hcnt, hfl]
    push_cast
    omega
  · have hcnt : flaggedCount (toggle_flag b row col) + 1 = flaggedCount b := by
      rw [e]
      exact flaggedCount_clear b (rowIx row col hin) (colIx row col hin)
        { cellAt b row col hin with is_flagged := 0 } hf rfl
    have hfl : (toggle_flag b row col).flags_remaining = b.flags_remaining + 1 := by
      rw [e]
      exact int_inc_eq _ (by unfold INT_MIN; omega) (by unfold INT_MAX; omega)
    rw [hfl]
    omega

theorem flag_sum_reveal_cell (b : GameBoard) (row col : Int) :
    (reveal_cell b row col).flags_remaining + (flaggedCount (reveal_cell b row col) : Int)
      = b.flags_remaining + (flaggedCount b : Int) := by
  have hg := reveal_cell_grows b row col
  rw [hg.2.2.1, flaggedCount_congr (fun i j => hg.is_flagged i j)]

theorem flag_sum_key_switch (b : GameBoard) (ch : Int)
    (hinv : b.flags_remaining + (flaggedCount b : Int) = NUM_MINES) :
    (key_switch b ch).flags_remaining + (flaggedCount (key_switch b ch) : Int)
      = NUM_MINES := by
  rcases key_switch_cases b ch with ⟨pos, e⟩ | ⟨row, col, e⟩ | ⟨row, col, e⟩
  · rw [e]
    exact hinv
  · rw [e, flag_sum_reveal_cell]
    exact hinv
  · rw [e]
    exact flag_sum_toggle_flag b row col hinv

/-- C19. Flag accounting: on every board reached from `init_board` and
`place_mines` by `reveal_cell` and `toggle_flag` calls at arbitrary positions
(and by key presses), `flags_remaining` plus the number of flagged cells is
`NUM_MINES`. -/
theorem flag_accounting (b : GameBoard) (h : Reachable b) :
    b.flags_remaining + (flaggedCount b : Int) = NUM_MINES := by
  induction h with
  | start draws b hp =>
    have hf := (place_mines_loop_fields draws 0 init_board b hp).2.1
    have hz : flaggedCount b = 0 := by
      unfold flaggedCount
      rw [Finset.card_eq_zero, Finset.filter_eq_empty_iff]
      intro p _ hne
      exact hne ((place_mines_placed draws b hp).1 p.1 p.2).2.1
    rw [hf, hz]
    rfl
  | reveal b row col _ ih => rw [flag_sum_reveal_cell, ih]
  | flag b row col _ ih => exact flag_sum_toggle_flag b row col ih
  | key b ch _ ih => exact flag_sum_key_switch b ch ih

theorem flag_accounting_witness :
    Reachable played34 ∧
    played34.flags_remaining + (flaggedCount played34 : Int) = NUM_MINES :=
  ⟨reachable_played34, flag_accounting played34 reachable_played34⟩

end Saper
